import Mathlib

/-!
Verification of the `segtree2` crate: an iterative segment tree over an
arbitrary monoid, stored as a flat table of length `2 * n` with the leaves at
indices `[n, 2n)` and internal node `i ∈ [1, n)` holding
`op table[2i] table[2i+1]`.

The Rust source (`src/crates/algolib/segtree2/src/lib.rs`) is embedded
shallowly:
* the caller-supplied algebra (`alg_traits::Identity`, not part of the
  sources at hand) is modelled from the spec: an explicit binary operation
  `op : α → α → α` and an identity element `idv : α`; the spec's accumulator
  contract (`accumulate_left acc x = op acc x`,
  `accumulate_right x acc = op x acc`) is used to render `T::op_left` /
  `T::op_right` directly through `op`;
* `Vec<T::Value>` indexing becomes `Option`-valued list access (`none`
  models a Rust index-out-of-bounds panic);
* the `while` loops whose termination is not structural are given explicit
  fuel; `none` on fuel exhaustion models non-termination.  The fuel passed
  by the wrappers is proved sufficient for every input on which the Rust
  loop terminates, so `none` is only produced on inputs where the Rust code
  panics or diverges.
* `open` applied to a `Range { start, end }` bound pair returns it
  unchanged; all claims are about half-open `start..end` ranges, so the
  embedding takes the two endpoints directly.
-/

namespace Segtree2

/-- The tree: element count and the flat table of length `2 * len`. -/
structure Segtree (α : Type) where
  len : Nat
  table : List α
  deriving Repr, DecidableEq

/-- Checked table read, `table[i]`.  `none` models the Rust panic. -/
def lget {α : Type} (tb : List α) (i : Nat) : Option α := tb[i]?

/-- Checked table write, `table[i] = x`.  `none` models the Rust panic. -/
def lset {α : Type} (tb : List α) (i : Nat) (x : α) : Option (List α) :=
  if i < tb.length then some (tb.set i x) else none

/-- `Segtree::update`: `table[i] = op (table[2i]) (table[2i+1])`.  The same
expression is the body of the construction loop in `from_slice`. -/
def update {α : Type} (op : α → α → α) (tb : List α) (i : Nat) :
    Option (List α) :=
  match lget tb (2 * i), lget tb (2 * i + 1) with
  | some a, some b => lset tb i (op a b)
  | _, _ => none

/-- The `for i in (1..len).rev()` loop of `from_slice`: processes indices
`i, i-1, ..., 1` in that order. -/
def buildLoop {α : Type} (op : α → α → α) (tb : List α) : Nat → Option (List α)
  | 0 => some tb
  | i + 1 =>
    match update op tb (i + 1) with
    | some tb' => buildLoop op tb' i
    | none => none

/-- `Segtree::from_slice`: the table starts as `src` chained with itself,
then the internal nodes are filled in decreasing index order. -/
def fromSlice {α : Type} (op : α → α → α) (src : List α) : Option (Segtree α) :=
  match buildLoop op (src ++ src) (src.length - 1) with
  | some tb => some ⟨src.length, tb⟩
  | none => none

/-- The `while 0 != i { self.update(i); i >>= 1 }` loop of `Segtree::set`,
with fuel (the index halves every iteration, so any fuel at least the
starting index is proved sufficient; the Rust loop always terminates). -/
def setLoop {α : Type} (op : α → α → α) (tb : List α) :
    Nat → Nat → Option (List α)
  | 0, i => if i = 0 then some tb else none
  | fuel + 1, i =>
    if i = 0 then some tb
    else
      match update op tb i with
      | some tb' => setLoop op tb' fuel (i / 2)
      | none => none

/-- `Segtree::set`: write leaf `i + len`, then update every ancestor. -/
def setAt {α : Type} (op : α → α → α) (st : Segtree α) (i : Nat) (x : α) :
    Option (Segtree α) :=
  match lset st.table (i + st.len) x with
  | some tb =>
    match setLoop op tb (i + st.len) ((i + st.len) / 2) with
    | some tb' => some ⟨st.len, tb'⟩
    | none => none
  | none => none

/-- One left-boundary step of the fold loop: if `s` is odd, accumulate
`table[s]` into the left accumulator (`T::op_left`) and advance `s`. -/
def foldStepL {α : Type} (op : α → α → α) (tb : List α) (s : Nat) (l : α) :
    Option (Nat × α) :=
  if s % 2 = 1 then
    match lget tb s with
    | some x => some (s + 1, op l x)
    | none => none
  else some (s, l)

/-- One right-boundary step of the fold loop: if `e` is odd, decrement `e`
and accumulate `table[e]` into the right accumulator (`T::op_right`). -/
def foldStepR {α : Type} (op : α → α → α) (tb : List α) (e : Nat) (r : α) :
    Option (Nat × α) :=
  if e % 2 = 1 then
    match lget tb (e - 1) with
    | some x => some (e - 1, op x r)
    | none => none
  else some (e, r)

/-- The `while start != end` loop of `Segtree::fold`, with fuel.  One fuel
unit per iteration; on fuel exhaustion with `s ≠ e` the result is `none`
(the Rust loop diverges exactly when the fuel passed by `fold` runs out). -/
def foldLoop {α : Type} (op : α → α → α) (tb : List α) :
    Nat → Nat → Nat → α → α → Option α
  | 0, s, e, l, r => if s = e then some (op l r) else none
  | fuel + 1, s, e, l, r =>
    if s = e then some (op l r)
    else
      match foldStepL op tb s l with
      | none => none
      | some (s', l') =>
        match foldStepR op tb e r with
        | none => none
        | some (e', r') => foldLoop op tb fuel (s' / 2) (e' / 2) l' r'

/-- `Segtree::fold` over the range `s..e`. -/
def fold {α : Type} (op : α → α → α) (idv : α) (st : Segtree α) (s e : Nat) :
    Option α :=
  foldLoop op st.table (e + st.len + 1) (s + st.len) (e + st.len) idv idv

/-- Outcome of the ascending phase of a search: either descend into the
block where the predicate first failed, or pass through with the final
accumulator and the iteration count `shift`. -/
inductive P1Out (α : Type) where
  | descend : α → Nat → P1Out α
  | through : α → Nat → P1Out α
  deriving Repr, DecidableEq

/-- The `while start != end` loop of `Segtree::search_forward`. -/
def sfAsc {α : Type} (op : α → α → α) (tb : List α) (pred : α → Bool) :
    Nat → Nat → Nat → α → Nat → Option (P1Out α)
  | 0, s, e, crr, shift => if s = e then some (.through crr shift) else none
  | fuel + 1, s, e, crr, shift =>
    if s = e then some (.through crr shift)
    else
      if s % 2 = 1 then
        match lget tb s with
        | none => none
        | some x =>
          if pred (op crr x) then
            sfAsc op tb pred fuel ((s + 1) / 2) (e / 2) (op crr x) (shift + 1)
          else some (.descend crr s)
      else sfAsc op tb pred fuel (s / 2) (e / 2) crr (shift + 1)

/-- The `for p in (0..shift).rev()` loop of `Segtree::search_forward`:
re-examines the end-aligned blocks `(orig_end >> p) - 1` from the highest
level down.  `Sum.inl` asks for a descent, `Sum.inr` means every block
passed. -/
def sfTop {α : Type} (op : α → α → α) (tb : List α) (pred : α → Bool)
    (origEnd : Nat) : Nat → α → Option (Sum (α × Nat) Unit)
  | 0, _ => some (.inr ())
  | p + 1, crr =>
    if (origEnd / 2 ^ p - 1) % 2 = 0 then
      match lget tb (origEnd / 2 ^ p - 1) with
      | none => none
      | some x =>
        if pred (op crr x) then sfTop op tb pred origEnd p (op crr x)
        else some (.inl (crr, origEnd / 2 ^ p - 1))
    else sfTop op tb pred origEnd p crr

/-- `Segtree::search_subtree_forward`: descend from `root`, preferring the
right child whenever the predicate still holds after absorbing the left
child. -/
def ssf {α : Type} (op : α → α → α) (tb : List α) (pred : α → Bool)
    (len : Nat) : Nat → α → Nat → Option Nat
  | 0, _, root => if root < len then none else some (root - len)
  | fuel + 1, crr, root =>
    if root < len then
      match lget tb (2 * root) with
      | none => none
      | some x =>
        if pred (op crr x) then ssf op tb pred len fuel (op crr x) (2 * root + 1)
        else ssf op tb pred len fuel crr (2 * root)
    else some (root - len)

/-- `Segtree::search_forward` over the range `s..e`. -/
def searchForward {α : Type} (op : α → α → α) (idv : α) (st : Segtree α)
    (s e : Nat) (pred : α → Bool) : Option Nat :=
  if s = e then some s
  else
    match sfAsc op st.table pred (e + st.len + 1) (s + st.len) (e + st.len) idv 0 with
    | none => none
    | some (.descend crr root) =>
      ssf op st.table pred st.len (2 * st.len + 1) crr root
    | some (.through crr shift) =>
      match sfTop op st.table pred (e + st.len) shift crr with
      | none => none
      | some (.inl (crr, root)) =>
        ssf op st.table pred st.len (2 * st.len + 1) crr root
      | some (.inr _) => some (e + st.len - st.len)

/-- The `while start != end` loop of `Segtree::search_backward`. -/
def sbAsc {α : Type} (op : α → α → α) (tb : List α) (pred : α → Bool) :
    Nat → Nat → Nat → α → Nat → Option (P1Out α)
  | 0, s, e, crr, shift => if s = e then some (.through crr shift) else none
  | fuel + 1, s, e, crr, shift =>
    if s = e then some (.through crr shift)
    else
      if e % 2 = 1 then
        match lget tb (e - 1) with
        | none => none
        | some x =>
          if pred (op x crr) then
            sbAsc op tb pred fuel ((s + 1) / 2) ((e - 1) / 2) (op x crr) (shift + 1)
          else some (.descend crr (e - 1))
      else sbAsc op tb pred fuel ((s + 1) / 2) (e / 2) crr (shift + 1)

/-- The `for p in (0..shift).rev()` loop of `Segtree::search_backward`:
re-examines the start-aligned blocks `(orig_start_m1 >> p) + 1` from the
highest level down. -/
def sbTop {α : Type} (op : α → α → α) (tb : List α) (pred : α → Bool)
    (origStartM1 : Nat) : Nat → α → Option (Sum (α × Nat) Unit)
  | 0, _ => some (.inr ())
  | p + 1, crr =>
    if (origStartM1 / 2 ^ p + 1) % 2 = 1 then
      match lget tb (origStartM1 / 2 ^ p + 1) with
      | none => none
      | some x =>
        if pred (op x crr) then sbTop op tb pred origStartM1 p (op x crr)
        else some (.inl (crr, origStartM1 / 2 ^ p + 1))
    else sbTop op tb pred origStartM1 p crr

/-- `Segtree::search_subtree_backward`. -/
def ssb {α : Type} (op : α → α → α) (tb : List α) (pred : α → Bool)
    (len : Nat) : Nat → α → Nat → Option Nat
  | 0, _, root => if root < len then none else some (root + 1 - len)
  | fuel + 1, crr, root =>
    if root < len then
      match lget tb (2 * root + 1) with
      | none => none
      | some x =>
        if pred (op x crr) then ssb op tb pred len fuel (op x crr) (2 * root)
        else ssb op tb pred len fuel crr (2 * root + 1)
    else some (root + 1 - len)

/-- `Segtree::search_backward` over the range `s..e`. -/
def searchBackward {α : Type} (op : α → α → α) (idv : α) (st : Segtree α)
    (s e : Nat) (pred : α → Bool) : Option Nat :=
  if s = e then some s
  else
    match sbAsc op st.table pred (e + st.len + 1) (s + st.len) (e + st.len) idv 0 with
    | none => none
    | some (.descend crr root) =>
      ssb op st.table pred st.len (2 * st.len + 1) crr root
    | some (.through crr shift) =>
      match sbTop op st.table pred (s + st.len - 1) shift crr with
      | none => none
      | some (.inl (crr, root)) =>
        ssb op st.table pred st.len (2 * st.len + 1) crr root
      | some (.inr _) => some (s + st.len - 1 + 1 - st.len)

/-! ### Specification-side reference definitions -/

/-- The straightforward reference reduction: the left-to-right combination
of `v[s..e]`, starting from the identity. -/
def refFold {α : Type} (op : α → α → α) (idv : α) (v : List α) (s e : Nat) :
    α :=
  ((v.drop s).take (e - s)).foldl op idv

/-- The positions (original array indices) covered by the subtree rooted at
table index `i`, in the order induced by the tree structure. -/
def nodeIdxs (n : Nat) (i : Nat) : List Nat :=
  if i = 0 then []
  else if n ≤ i then [i - n]
  else nodeIdxs n (2 * i) ++ nodeIdxs n (2 * i + 1)
termination_by 2 * n - i
decreasing_by all_goals omega

/-- The per-level evolution of the left boundary in all four tree walks:
`ceil (s / 2)`. -/
def nextS (s : Nat) : Nat := (s + 1) / 2

/-- Number of iterations of the `while start != end` walk (the final value
of `shift`). -/
def lrDepth (s e : Nat) : Nat :=
  if s < e then lrDepth (nextS s) (e / 2) + 1 else 0
termination_by e - s
decreasing_by simp only [nextS]; omega

/-- The left-boundary blocks of the walk, listed in the order they are
taken (bottom level first, i.e. left to right over the array). -/
def lblocks (s e : Nat) : List Nat :=
  if s < e then (if s % 2 = 1 then [s] else []) ++ lblocks (nextS s) (e / 2)
  else []
termination_by e - s
decreasing_by simp only [nextS]; omega

/-- The right-boundary blocks of the walk, listed left to right over the
array (top level first). -/
def rblocks (s e : Nat) : List Nat :=
  if s < e then rblocks (nextS s) (e / 2) ++ (if e % 2 = 1 then [e - 1] else [])
  else []
termination_by e - s
decreasing_by simp only [nextS]; omega

/-- Left-to-right scan of a list of blocks: starting from `crr`, absorb each
block's table value on the right, stopping with `Sum.inl` at the first block
on which the predicate rejects the tentative accumulator. -/
def scanF {α : Type} (op : α → α → α) (tb : List α) (pred : α → Bool) :
    List Nat → α → Option (Sum (α × Nat) α)
  | [], crr => some (.inr crr)
  | b :: bs, crr =>
    match lget tb b with
    | none => none
    | some x =>
      if pred (op crr x) then scanF op tb pred bs (op crr x)
      else some (.inl (crr, b))

/-- Right-to-left scan of a list of blocks (the backward search): absorb
each block's table value on the left. -/
def scanBk {α : Type} (op : α → α → α) (tb : List α) (pred : α → Bool) :
    List Nat → α → Option (Sum (α × Nat) α)
  | [], crr => some (.inr crr)
  | b :: bs, crr =>
    match lget tb b with
    | none => none
    | some x =>
      if pred (op x crr) then scanBk op tb pred bs (op x crr)
      else some (.inl (crr, b))

/-- `Models op idv v st`: the table of `st` is a correct segment tree over
the value sequence `v`: right length and every node (leaf or internal)
stores the fold of the positions below it. -/
def nodeVal {α : Type} (op : α → α → α) (idv : α) (v : List α) (i : Nat) :
    α :=
  ((nodeIdxs v.length i).map fun j => v.getD j idv).foldl op idv

/-- Structural well-formedness together with node values. -/
def Models {α : Type} (op : α → α → α) (idv : α) (v : List α)
    (st : Segtree α) : Prop :=
  st.len = v.length ∧ st.table.length = 2 * v.length ∧
    ∀ i, 1 ≤ i → i < 2 * v.length → lget st.table i = some (nodeVal op idv v i)

/-- The tree invariant exactly as the spec states it: the table has length
`2 * len` and every internal node stores the combination of its two
children. -/
def Inv {α : Type} (op : α → α → α) (st : Segtree α) : Prop :=
  st.table.length = 2 * st.len ∧
    ∀ i, i < st.len → 1 ≤ i →
      lget st.table i =
        Option.map₂ op (lget st.table (2 * i)) (lget st.table (2 * i + 1))

instance invDecidable {α : Type} [DecidableEq α] (op : α → α → α)
    (st : Segtree α) : Decidable (Inv op st) := by
  unfold Inv
  infer_instance

/-- The leaf sequence currently stored in the tree. -/
def leaves {α : Type} (st : Segtree α) : List α :=
  (st.table.drop st.len).take st.len

/-- The positions covered by a list of blocks, in order. -/
def coverOf (n : Nat) : List Nat → List Nat
  | [] => []
  | b :: bs => nodeIdxs n b ++ coverOf n bs

/-- `refFold` rewritten through positions: fold of `v.getD` over
`[s, e)`. -/
def rfold {α : Type} (op : α → α → α) (idv : α) (v : List α) (s e : Nat) :
    α :=
  ((List.range' s (e - s)).map fun j => v.getD j idv).foldl op idv

/-! ### Generic list and fold lemmas -/

section FoldLemmas

variable {α : Type} (op : α → α → α) (idv : α)

theorem foldl_op_init (hassoc : ∀ a b c, op (op a b) c = op a (op b c))
    (hidl : ∀ a, op idv a = a) (hidr : ∀ a, op a idv = a)
    (xs : List α) (a : α) :
    xs.foldl op a = op a (xs.foldl op idv) := by
  induction xs generalizing a with
  | nil => simp [hidr]
  | cons x xs ih =>
    simp only [List.foldl_cons]
    rw [ih (op a x), ih (op idv x), hidl, hassoc]

theorem foldl_op_append (hassoc : ∀ a b c, op (op a b) c = op a (op b c))
    (hidl : ∀ a, op idv a = a) (hidr : ∀ a, op a idv = a) (xs ys : List α) :
    (xs ++ ys).foldl op idv = op (xs.foldl op idv) (ys.foldl op idv) := by
  rw [List.foldl_append, foldl_op_init op idv hassoc hidl hidr]

theorem foldr_op_eq_foldl (hassoc : ∀ a b c, op (op a b) c = op a (op b c))
    (hidl : ∀ a, op idv a = a) (hidr : ∀ a, op a idv = a) (xs : List α) :
    xs.foldr op idv = xs.foldl op idv := by
  induction xs with
  | nil => rfl
  | cons x xs ih =>
    simp only [List.foldr_cons, List.foldl_cons]
    rw [ih, foldl_op_init op idv hassoc hidl hidr (a := op idv x), hidl]

end FoldLemmas

section ListLemmas

variable {α : Type}

theorem drop_take_eq_range'_map (v : List α) (idv : α) :
    ∀ (k s : Nat), s + k ≤ v.length →
      (v.drop s).take k = (List.range' s k).map fun j => v.getD j idv := by
  intro k
  induction k with
  | zero => intro s _; simp
  | succ k ih =>
    intro s hs
    have hslt : s < v.length := by omega
    rw [List.drop_eq_getElem_cons hslt, List.range'_succ]
    simp only [List.take_succ_cons, List.map_cons]
    rw [ih (s + 1) (by omega), List.getD_eq_getElem v idv hslt]

theorem refFold_eq_rfold (op : α → α → α) (idv : α) (v : List α) (s e : Nat)
    (he : e ≤ v.length) :
    refFold op idv v s e = rfold op idv v s e := by
  unfold refFold rfold
  by_cases hse : s ≤ e
  · rw [drop_take_eq_range'_map v idv (e - s) s (by omega)]
  · have : e - s = 0 := by omega
    simp [this]

end ListLemmas

/-! ### Subtree position lists and the block decomposition -/

theorem nodeIdxs_leaf (n i : Nat) (h0 : i ≠ 0) (h : n ≤ i) :
    nodeIdxs n i = [i - n] := by
  rw [nodeIdxs]
  simp [h0, h]

theorem nodeIdxs_node (n i : Nat) (h1 : 1 ≤ i) (h : i < n) :
    nodeIdxs n i = nodeIdxs n (2 * i) ++ nodeIdxs n (2 * i + 1) := by
  rw [nodeIdxs]
  have : ¬ i = 0 := by omega
  have : ¬ n ≤ i := by omega
  simp [*]

theorem nodeIdxs_ne_nil (n : Nat) : ∀ i, 1 ≤ i → nodeIdxs n i ≠ [] := by
  intro i
  induction i using nodeIdxs.induct n with
  | case1 => intro h; omega
  | case2 i h0 hn => intro _; rw [nodeIdxs_leaf n i h0 hn]; simp
  | case3 i h0 hn ih1 ih2 =>
    intro h1
    rw [nodeIdxs_node n i h1 (by omega)]
    have h2 : nodeIdxs n (2 * i) ≠ [] := ih1 (by omega)
    simp [h2]

theorem coverOf_append (n : Nat) (xs ys : List Nat) :
    coverOf n (xs ++ ys) = coverOf n xs ++ coverOf n ys := by
  induction xs with
  | nil => rfl
  | cons b bs ih => simp [coverOf, ih]

/-- Replacing each node of an even-aligned run of nodes by its two children
preserves the covered positions. -/
theorem coverOf_double (n : Nat) :
    ∀ (k j : Nat), 1 ≤ j → j + k ≤ n →
      coverOf n (List.range' (2 * j) (2 * k)) = coverOf n (List.range' j k) := by
  intro k
  induction k with
  | zero => intro j _ _; rfl
  | succ k ih =>
    intro j hj hjk
    have h2 : 2 * (k + 1) = (2 * k + 1) + 1 := by omega
    rw [h2, List.range'_succ]
    rw [List.range'_succ]
    have h3 : 2 * j + 1 + 1 = 2 * (j + 1) := by omega
    rw [List.range'_succ, h3]
    simp only [coverOf]
    rw [ih (j + 1) (by omega) (by omega)]
    rw [nodeIdxs_node n j hj (by omega), List.append_assoc]

/-- Gluing adjacent ranges (step 1). -/
theorem range'_glue (s a b : Nat) :
    List.range' s a ++ List.range' (s + a) b = List.range' s (a + b) := by
  have h := List.range'_append s a b 1
  simp only [Nat.one_mul, Nat.mul_one] at h
  rw [h, Nat.add_comm]

/-- Splitting a range at its even-aligned core. -/
theorem range'_split_parity (s e : Nat) (h : s < e) :
    List.range' s (e - s) =
      (if s % 2 = 1 then [s] else []) ++
        List.range' (s + s % 2) ((e - e % 2) - (s + s % 2)) ++
        (if e % 2 = 1 then [e - 1] else []) := by
  rcases Nat.mod_two_eq_zero_or_one s with hs | hs <;>
    rcases Nat.mod_two_eq_zero_or_one e with he | he
  · -- s even, e even
    rw [if_neg (by omega), if_neg (by omega), List.nil_append,
      List.append_nil, hs, he]
    norm_num
  · -- s even, e odd
    rw [if_neg (by omega), if_pos (by omega), List.nil_append]
    rw [show s + s % 2 = s by omega]
    rw [show e - e % 2 - s = e - 1 - s by omega]
    rw [show ([e - 1] : List Nat) = List.range' (s + (e - 1 - s)) 1 by
      rw [show s + (e - 1 - s) = e - 1 by omega]; rfl]
    rw [range'_glue, show e - 1 - s + 1 = e - s by omega]
  · -- s odd, e even
    rw [if_pos (by omega), if_neg (by omega), List.append_nil]
    rw [show s + s % 2 = s + 1 by omega]
    rw [show e - e % 2 - (s + 1) = e - (s + 1) by omega]
    rw [show ([s] : List Nat) = List.range' s 1 by rfl, range'_glue,
      show 1 + (e - (s + 1)) = e - s by omega]
  · -- s odd, e odd
    rw [if_pos (by omega), if_pos (by omega)]
    rw [show s + s % 2 = s + 1 by omega]
    rw [show e - e % 2 - (s + 1) = e - 1 - (s + 1) by omega]
    rw [show ([e - 1] : List Nat) = List.range' (s + 1 + (e - 1 - (s + 1))) 1 by
      rw [show s + 1 + (e - 1 - (s + 1)) = e - 1 by omega]; rfl]
    rw [List.append_assoc, range'_glue,
      show e - 1 - (s + 1) + 1 = e - (s + 1) by omega]
    rw [show ([s] : List Nat) = List.range' s 1 by rfl, range'_glue,
      show 1 + (e - (s + 1)) = e - s by omega]


/-- The block decomposition of the walk covers exactly the positions of the
base range, in left-to-right order. -/
theorem blocks_cover (n : Nat) :
    ∀ s e, 1 ≤ s → s ≤ e → e ≤ 2 * n →
      coverOf n (lblocks s e ++ rblocks s e) =
        coverOf n (List.range' s (e - s)) := by
  intro s e
  induction s, e using lblocks.induct with
  | case1 s e hlt ih =>
    intro h1 _ h2n
    have hs' : 1 ≤ nextS s := by simp only [nextS]; omega
    have hle : nextS s ≤ e / 2 := by simp only [nextS]; omega
    have ihx := ih hs' hle (by omega)
    rw [lblocks, rblocks]
    simp only [hlt, if_true]
    rw [range'_split_parity s e hlt]
    have hcore : (e - e % 2) - (s + s % 2) = 2 * (e / 2 - nextS s) := by
      simp only [nextS]; omega
    have hs1 : s + s % 2 = 2 * nextS s := by simp only [nextS]; omega
    rw [hcore, hs1]
    simp only [coverOf_append]
    rw [coverOf_double n (e / 2 - nextS s) (nextS s) hs' (by omega)]
    rw [← ihx]
    simp only [coverOf_append, List.append_assoc]
  | case2 s e hlt =>
    intro _ hse _
    have : s = e := by omega
    subst this
    rw [lblocks, rblocks]
    simp [hlt]

/-- Every left block lies in `[1, e)`. -/
theorem mem_lblocks (s e : Nat) (h1 : 1 ≤ s) :
    ∀ b ∈ lblocks s e, 1 ≤ b ∧ b < e := by
  induction s, e using lblocks.induct with
  | case1 s e hlt ih =>
    intro b hb
    rw [lblocks, if_pos hlt] at hb
    rcases List.mem_append.mp hb with hb | hb
    · rcases Nat.mod_two_eq_zero_or_one s with hs | hs
      · simp [hs] at hb
      · simp [hs] at hb
        omega
    · have := ih (by simp only [nextS]; omega) b hb
      have h2 : e / 2 ≤ e := Nat.div_le_self e 2
      omega
  | case2 s e hlt =>
    intro b hb
    rw [lblocks, if_neg hlt] at hb
    simp at hb

/-- Every right block lies in `[1, e)`. -/
theorem mem_rblocks (s e : Nat) (h1 : 1 ≤ s) :
    ∀ b ∈ rblocks s e, 1 ≤ b ∧ b < e := by
  induction s, e using rblocks.induct with
  | case1 s e hlt ih =>
    intro b hb
    rw [rblocks, if_pos hlt] at hb
    rcases List.mem_append.mp hb with hb | hb
    · have := ih (by simp only [nextS]; omega) b hb
      have h2 : e / 2 ≤ e := Nat.div_le_self e 2
      omega
    · rcases Nat.mod_two_eq_zero_or_one e with he | he
      · simp [he] at hb
      · simp [he] at hb
        omega
  | case2 s e hlt =>
    intro b hb
    rw [rblocks, if_neg hlt] at hb
    simp at hb

/-- `Chain n a bs c`: the blocks `bs`, taken in order, cover exactly the
contiguous positions `[a, c)`, each block a nonempty contiguous run. -/
inductive Chain (n : Nat) : Nat → List Nat → Nat → Prop
  | nil : ∀ a, Chain n a [] a
  | cons : ∀ a m b bs c, nodeIdxs n b = List.range' a m → 1 ≤ m → 1 ≤ b →
      b < 2 * n → Chain n (a + m) bs c → Chain n a (b :: bs) c

/-- A block list whose cover is a contiguous range is a chain: each block's
own positions form a contiguous sub-run. -/
theorem chain_of_cover (n : Nat) :
    ∀ (bs : List Nat) (a len : Nat), (∀ b ∈ bs, 1 ≤ b ∧ b < 2 * n) →
      coverOf n bs = List.range' a len → Chain n a bs (a + len) := by
  intro bs
  induction bs with
  | nil =>
    intro a len _ hcov
    have hn : len = 0 := by
      by_contra h
      have h2 : List.range' a len ≠ [] := by
        simp [List.range'_eq_nil]
        omega
      exact h2 (by rw [← hcov]; rfl)
    subst hn
    exact Chain.nil a
  | cons b bs ih =>
    intro a len hmem hcov
    have hb := hmem b (by simp)
    have hcov' : List.range' a len = nodeIdxs n b ++ coverOf n bs := by
      rw [← hcov]; rfl
    rw [List.range'_eq_append_iff] at hcov'
    obtain ⟨k, hk, hidx, hrest⟩ := hcov'
    have hk1 : 1 ≤ k := by
      rcases Nat.eq_zero_or_pos k with h0 | h1
      · subst h0
        exact absurd hidx (by simp [nodeIdxs_ne_nil n b hb.1])
      · exact h1
    have hchain := ih (a + k) (len - k) (fun x hx => hmem x (by simp [hx]))
      hrest
    have hsum : a + k + (len - k) = a + len := by omega
    rw [hsum] at hchain
    exact Chain.cons a k b bs (a + len) hidx hk1 hb.1 hb.2 hchain

/-! ### Construction establishes the invariant -/

theorem buildLoop_ok {α : Type} (op : α → α → α) (n : Nat) :
    ∀ (j : Nat) (tb : List α), tb.length = 2 * n → (j < n ∨ j = 0) →
      ∃ tb', buildLoop op tb j = some tb' ∧ tb'.length = 2 * n ∧
        (∀ i, j < i → tb'[i]? = tb[i]?) ∧
        (∀ i, 1 ≤ i → i ≤ j →
          tb'[i]? = Option.map₂ op tb'[2 * i]? tb'[2 * i + 1]?) := by
  intro j
  induction j with
  | zero =>
    intro tb hlen _
    exact ⟨tb, rfl, hlen, fun i _ => rfl, fun i h1 h2 => by omega⟩
  | succ j ih =>
    intro tb hlen hj
    have hjn : j + 1 < n := by omega
    have hc2 : 2 * (j + 1) < 2 * n := by omega
    have hc3 : 2 * (j + 1) + 1 < 2 * n := by omega
    obtain ⟨va, ha⟩ : ∃ a, tb[2 * (j + 1)]? = some a :=
      ⟨_, List.getElem?_eq_getElem (by omega)⟩
    obtain ⟨vb, hb⟩ : ∃ a, tb[2 * (j + 1) + 1]? = some a :=
      ⟨_, List.getElem?_eq_getElem (by omega)⟩
    have hupd : update op tb (j + 1) = some (tb.set (j + 1) (op va vb)) := by
      unfold update lset
      rw [show lget tb (2 * (j + 1)) = some va from ha,
        show lget tb (2 * (j + 1) + 1) = some vb from hb]
      simp only []
      rw [if_pos (by omega)]
    obtain ⟨tb', hrun, hlen', hpres, heq⟩ :=
      ih (tb.set (j + 1) (op va vb)) (by simp [hlen]) (by omega)
    refine ⟨tb', ?_, hlen', ?_, ?_⟩
    · rw [buildLoop, hupd]
      exact hrun
    · intro i hi
      rw [hpres i (by omega), List.getElem?_set_ne (by omega)]
    · intro i h1 h2
      rcases Nat.lt_or_ge i (j + 1) with hlt | hge
      · exact heq i h1 (by omega)
      · have hieq : i = j + 1 := by omega
        subst hieq
        rw [hpres (j + 1) (by omega), List.getElem?_set, if_pos rfl,
          if_pos (by omega)]
        rw [hpres (2 * (j + 1)) (by omega), hpres (2 * (j + 1) + 1) (by omega),
          List.getElem?_set_ne (by omega), List.getElem?_set_ne (by omega),
          ha, hb]
        rfl

theorem fromSlice_ok {α : Type} (op : α → α → α) (src : List α) :
    ∃ st, fromSlice op src = some st ∧ st.len = src.length ∧
      Inv op st ∧ leaves st = src := by
  obtain ⟨tb', hrun, hlen', hpres, heq⟩ :=
    buildLoop_ok op src.length (src.length - 1) (src ++ src)
      (by rw [List.length_append]; omega) (by omega)
  refine ⟨⟨src.length, tb'⟩, ?_, rfl, ⟨hlen', ?_⟩, ?_⟩
  · unfold fromSlice
    rw [hrun]
  · intro i h2 h1
    have h2' : i < src.length := h2
    exact heq i h1 (by omega)
  · apply List.ext_getElem?
    intro q
    unfold leaves
    simp only [List.getElem?_take, List.getElem?_drop]
    by_cases hq : q < src.length
    · rw [if_pos hq, hpres (src.length + q) (by omega),
        List.getElem?_append_right (by omega)]
      congr 1
      omega
    · rw [if_neg hq]
      symm
      apply List.getElem?_eq_none
      omega

/-! ### Point update preserves the invariant -/

theorem setLoop_ok {α : Type} (op : α → α → α) (n : Nat) :
    ∀ (j fuel : Nat) (tb : List α), j ≤ fuel → tb.length = 2 * n → j < n →
      (∀ m, 1 ≤ m → m < n → (∀ k, m ≠ j / 2 ^ k) →
        tb[m]? = Option.map₂ op tb[2 * m]? tb[2 * m + 1]?) →
      ∃ tb', setLoop op tb fuel j = some tb' ∧ tb'.length = 2 * n ∧
        (∀ i, (∀ k, i ≠ j / 2 ^ k) → tb'[i]? = tb[i]?) ∧
        (∀ m, 1 ≤ m → m < n →
          tb'[m]? = Option.map₂ op tb'[2 * m]? tb'[2 * m + 1]?) := by
  intro j
  induction j using Nat.strong_induction_on with
  | _ j ihs =>
    intro fuel tb hfuel hlen hjn hin
    rcases Nat.eq_zero_or_pos j with h0 | hpos
    · subst h0
      have hrun : setLoop op tb fuel 0 = some tb := by
        cases fuel with
        | zero => rw [setLoop]; simp
        | succ fuel => rw [setLoop]; simp
      refine ⟨tb, hrun, hlen, fun i _ => rfl, fun m h1 h2 => ?_⟩
      apply hin m h1 h2
      intro k
      simp only [Nat.zero_div]
      omega
    · obtain ⟨j, rfl⟩ : ∃ j', j = j' + 1 := ⟨j - 1, by omega⟩
      obtain ⟨fuel, rfl⟩ : ∃ f', fuel = f' + 1 := ⟨fuel - 1, by omega⟩
      have hc2 : 2 * (j + 1) < 2 * n := by omega
      have hc3 : 2 * (j + 1) + 1 < 2 * n := by omega
      obtain ⟨va, ha⟩ : ∃ a, tb[2 * (j + 1)]? = some a :=
        ⟨_, List.getElem?_eq_getElem (by omega)⟩
      obtain ⟨vb, hb⟩ : ∃ a, tb[2 * (j + 1) + 1]? = some a :=
        ⟨_, List.getElem?_eq_getElem (by omega)⟩
      have hupd : update op tb (j + 1) = some (tb.set (j + 1) (op va vb)) := by
        unfold update lset
        rw [show lget tb (2 * (j + 1)) = some va from ha,
          show lget tb (2 * (j + 1) + 1) = some vb from hb]
        simp only []
        rw [if_pos (by omega)]
      have hdd : ∀ k, (j + 1) / 2 / 2 ^ k = (j + 1) / 2 ^ (k + 1) := by
        intro k
        rw [Nat.div_div_eq_div_mul, pow_succ, Nat.mul_comm]
      have hmid : ∀ m, 1 ≤ m → m < n → (∀ k, m ≠ (j + 1) / 2 / 2 ^ k) →
          (tb.set (j + 1) (op va vb))[m]? =
            Option.map₂ op (tb.set (j + 1) (op va vb))[2 * m]?
              (tb.set (j + 1) (op va vb))[2 * m + 1]? := by
        intro m h1 h2 hm
        by_cases hmj : m = j + 1
        · subst hmj
          rw [List.getElem?_set, if_pos rfl, if_pos (by omega),
            List.getElem?_set_ne (by omega), List.getElem?_set_ne (by omega),
            ha, hb]
          rfl
        · have hm' : ∀ k, m ≠ (j + 1) / 2 ^ k := by
            intro k
            cases k with
            | zero => simpa using hmj
            | succ k =>
              have hx := hm k
              rw [hdd k] at hx
              exact hx
          rw [List.getElem?_set_ne (by omega), List.getElem?_set_ne ?_,
            List.getElem?_set_ne ?_]
          · exact hin m h1 h2 hm'
          · intro h
            apply hm 0
            simp only [pow_zero, Nat.div_one]
            omega
          · intro h
            apply hm 0
            simp only [pow_zero, Nat.div_one]
            omega
      obtain ⟨tb', hrun, hlen', hpres, heq⟩ :=
        ihs ((j + 1) / 2) (by omega) fuel (tb.set (j + 1) (op va vb))
          (by omega) (by simp [hlen]) (by omega) hmid
      refine ⟨tb', ?_, hlen', ?_, heq⟩
      · rw [setLoop, if_neg (by omega), hupd]
        exact hrun
      · intro i hi
        have hc1 : ∀ k, i ≠ (j + 1) / 2 / 2 ^ k := by
          intro k
          rw [hdd k]
          exact hi (k + 1)
        have hc2' : j + 1 ≠ i := by
          intro h
          apply hi 0
          simp only [pow_zero, Nat.div_one]
          omega
        rw [hpres i hc1, List.getElem?_set_ne hc2']

theorem setAt_ok {α : Type} (op : α → α → α) (st : Segtree α) (i : Nat)
    (x : α) (hInv : Inv op st) (hi : i < st.len) :
    ∃ st', setAt op st i x = some st' ∧ st'.len = st.len ∧ Inv op st' ∧
      leaves st' = (leaves st).set i x := by
  obtain ⟨hlen, heqs⟩ := hInv
  set n := st.len with hn
  have hwr : lset st.table (i + n) x = some (st.table.set (i + n) x) := by
    unfold lset
    rw [if_pos (by omega)]
  have hj2 : (i + n) / 2 < n := by omega
  have hmid : ∀ m, 1 ≤ m → m < n → (∀ k, m ≠ (i + n) / 2 / 2 ^ k) →
      (st.table.set (i + n) x)[m]? =
        Option.map₂ op (st.table.set (i + n) x)[2 * m]?
          (st.table.set (i + n) x)[2 * m + 1]? := by
    intro m h1 h2 hm
    have hmain := heqs m h2 h1
    have h2m : 2 * m = i + n → False := by
      intro h
      apply hm 0
      simp only [pow_zero, Nat.div_one]
      omega
    have h2m1 : 2 * m + 1 = i + n → False := by
      intro h
      apply hm 0
      simp only [pow_zero, Nat.div_one]
      omega
    rw [List.getElem?_set_ne (by omega),
      List.getElem?_set_ne (fun h => h2m h.symm),
      List.getElem?_set_ne (fun h => h2m1 h.symm)]
    exact hmain
  obtain ⟨tb', hrun, hlen', hpres, heq⟩ :=
    setLoop_ok op n ((i + n) / 2) (i + n) (st.table.set (i + n) x)
      (by omega) (by simp [hlen]) hj2 hmid
  refine ⟨⟨n, tb'⟩, ?_, rfl, ⟨by simpa using hlen', ?_⟩, ?_⟩
  · simp only [setAt, ← hn, hwr, hrun]
  · intro m h2 h1
    exact heq m h1 h2
  · apply List.ext_getElem?
    intro q
    unfold leaves
    simp only [← hn]
    simp only [List.getElem?_take, List.getElem?_drop]
    by_cases hq : q < n
    · rw [if_pos hq]
      have hleafpres : tb'[n + q]? = (st.table.set (i + n) x)[n + q]? := by
        apply hpres
        intro k
        have hk1 : (i + n) / 2 / 2 ^ k ≤ (i + n) / 2 := Nat.div_le_self _ _
        omega
      rw [hleafpres]
      by_cases hqi : q = i
      · subst hqi
        rw [show n + q = q + n from by omega]
        rw [List.getElem?_set, if_pos rfl, if_pos (by omega),
          List.getElem?_set, if_pos rfl, if_pos ?_]
        simp only [List.length_set, List.length_take, List.length_drop]
        omega
      · rw [List.getElem?_set_ne (by omega), List.getElem?_set_ne (by omega),
          List.getElem?_take, if_pos hq, List.getElem?_drop]
    · rw [if_neg hq]
      symm
      apply List.getElem?_eq_none
      simp only [List.length_set, List.length_take, List.length_drop]
      omega

theorem setAt_oob {α : Type} (op : α → α → α) (st : Segtree α) (i : Nat)
    (x : α) (hlen : st.table.length = 2 * st.len) (hi : st.len ≤ i) :
    setAt op st i x = none := by
  unfold setAt lset
  rw [if_neg (by omega)]

/-! ### Node values from the invariant -/

theorem nodeVal_leaf {α : Type} (op : α → α → α) (idv : α)
    (hidl : ∀ a, op idv a = a) (v : List α) (i : Nat) (h0 : i ≠ 0)
    (h : v.length ≤ i) :
    nodeVal op idv v i = v.getD (i - v.length) idv := by
  unfold nodeVal
  rw [nodeIdxs_leaf _ _ h0 h]
  simp [hidl]

theorem nodeVal_node {α : Type} (op : α → α → α) (idv : α)
    (hassoc : ∀ a b c, op (op a b) c = op a (op b c))
    (hidl : ∀ a, op idv a = a) (hidr : ∀ a, op a idv = a)
    (v : List α) (i : Nat) (h1 : 1 ≤ i) (h : i < v.length) :
    nodeVal op idv v i =
      op (nodeVal op idv v (2 * i)) (nodeVal op idv v (2 * i + 1)) := by
  unfold nodeVal
  rw [nodeIdxs_node _ _ h1 h, List.map_append,
    foldl_op_append op idv hassoc hidl hidr]

/-- A well-formed tree (`Inv`) stores at every node the fold of the leaves
below it. -/
theorem inv_models {α : Type} (op : α → α → α) (idv : α)
    (hassoc : ∀ a b c, op (op a b) c = op a (op b c))
    (hidl : ∀ a, op idv a = a) (hidr : ∀ a, op a idv = a)
    (st : Segtree α) (hInv : Inv op st) :
    Models op idv (leaves st) st := by
  obtain ⟨hlen, heqs⟩ := hInv
  have hlv : (leaves st).length = st.len := by
    unfold leaves
    simp only [List.length_take, List.length_drop]
    omega
  refine ⟨hlv.symm, by rw [hlv]; exact hlen, ?_⟩
  suffices hstrong : ∀ (d i : Nat), 2 * st.len - i ≤ d → 1 ≤ i →
      i < 2 * st.len →
      lget st.table i = some (nodeVal op idv (leaves st) i) by
    intro i h1 h2
    rw [hlv] at h2
    exact hstrong (2 * st.len - i) i (by omega) h1 h2
  intro d
  induction d with
  | zero =>
    intro i hd h1 h2
    omega
  | succ d ihd =>
    intro i hd h1 h2
    by_cases hleaf : st.len ≤ i
    · have hib : i < st.table.length := by omega
      unfold lget
      rw [List.getElem?_eq_getElem hib,
        nodeVal_leaf op idv hidl _ i (by omega) (by rw [hlv]; exact hleaf)]
      congr 1
      rw [hlv, List.getD_eq_getElem?_getD]
      unfold leaves
      simp only [List.getElem?_take, List.getElem?_drop]
      rw [if_pos (by omega), show st.len + (i - st.len) = i from by omega,
        List.getElem?_eq_getElem hib]
      rfl
    · have hint : i < st.len := by omega
      rw [heqs i hint h1,
        ihd (2 * i) (by omega) (by omega) (by omega),
        ihd (2 * i + 1) (by omega) (by omega) (by omega),
        nodeVal_node op idv hassoc hidl hidr _ i h1 (by rw [hlv]; exact hint)]
      rfl

/-! ### Fold computes the reference reduction -/

theorem map_sub_range' (n : Nat) :
    ∀ (k s : Nat), (List.range' (s + n) k).map (fun x => x - n) =
      List.range' s k := by
  intro k
  induction k with
  | zero => intro s; rfl
  | succ k ih =>
    intro s
    rw [List.range'_succ, List.range'_succ, List.map_cons]
    rw [show s + n + 1 = (s + 1) + n from by omega, ih (s + 1)]
    simp

theorem coverOf_leaves (n : Nat) :
    ∀ bs : List Nat, (∀ x ∈ bs, n ≤ x ∧ 1 ≤ x) →
      coverOf n bs = bs.map (fun x => x - n) := by
  intro bs
  induction bs with
  | nil => intro _; rfl
  | cons b bs ih =>
    intro h
    have hb := h b (by simp)
    unfold coverOf
    rw [nodeIdxs_leaf n b (by omega) hb.1, ih (fun x hx => h x (by simp [hx]))]
    rfl

theorem rfold_append {α : Type} (op : α → α → α) (idv : α)
    (hassoc : ∀ a b c, op (op a b) c = op a (op b c))
    (hidl : ∀ a, op idv a = a) (hidr : ∀ a, op a idv = a)
    (v : List α) (a b c : Nat) (hab : a ≤ b) (hbc : b ≤ c) :
    op (rfold op idv v a b) (rfold op idv v b c) = rfold op idv v a c := by
  unfold rfold
  rw [← foldl_op_append op idv hassoc hidl hidr, ← List.map_append]
  have h := range'_glue a (b - a) (c - b)
  rw [show a + (b - a) = b from by omega] at h
  rw [h, show b - a + (c - b) = c - a from by omega]

theorem nodeVal_of_range {α : Type} (op : α → α → α) (idv : α)
    (v : List α) (b a m : Nat) (hidx : nodeIdxs v.length b = List.range' a m) :
    nodeVal op idv v b = rfold op idv v a (a + m) := by
  unfold nodeVal rfold
  rw [hidx, show a + m - a = m from by omega]

theorem chain_le (n : Nat) :
    ∀ (bs : List Nat) (a c : Nat), Chain n a bs c → a ≤ c := by
  intro bs
  induction bs with
  | nil =>
    intro a c h
    cases h
    omega
  | cons b bs ih =>
    intro a c h
    cases h with
    | cons _ m _ _ _ _ _ _ _ hrest =>
      have := ih _ _ hrest
      omega

/-- Folding the node values of a chain of blocks yields the fold of the
underlying positions. -/
theorem chain_fold {α : Type} (op : α → α → α) (idv : α)
    (hassoc : ∀ a b c, op (op a b) c = op a (op b c))
    (hidl : ∀ a, op idv a = a) (hidr : ∀ a, op a idv = a) (v : List α) :
    ∀ (bs : List Nat) (a c : Nat), Chain v.length a bs c → a ≤ c →
      (bs.map (nodeVal op idv v)).foldl op idv = rfold op idv v a c := by
  intro bs
  induction bs with
  | nil =>
    intro a c hch _
    cases hch
    unfold rfold
    simp
  | cons b bs ih =>
    intro a c hch hac
    cases hch with
    | cons _ m _ _ _ hidx hm hb1 hb2 hrest =>
      have hle : a + m ≤ c := chain_le v.length bs (a + m) c hrest
      rw [List.map_cons]
      rw [List.foldl_cons, foldl_op_init op idv hassoc hidl hidr, hidl]
      rw [ih (a + m) c hrest (by omega)]
      rw [nodeVal_of_range op idv v b a m hidx]
      exact rfold_append op idv hassoc hidl hidr v a (a + m) c (by omega) hle

/-- The fold loop computes the blocks decomposition: left blocks into the
left accumulator in order, right blocks into the right accumulator. -/
theorem foldLoop_eq_blocks {α : Type} (op : α → α → α) (tb : List α)
    (tv : Nat → α)
    (htv : ∀ b, 1 ≤ b → b < tb.length → lget tb b = some (tv b)) :
    ∀ (fuel : Nat), ∀ (s e : Nat) (l r : α), 1 ≤ s → s ≤ e →
      e ≤ tb.length → e - s ≤ fuel →
      foldLoop op tb fuel s e l r =
        some (op ((lblocks s e).foldl (fun a b => op a (tv b)) l)
          ((rblocks s e).foldr (fun b c => op (tv b) c) r)) := by
  intro fuel
  induction fuel with
  | zero =>
    intro s e l r h1 hse hel hfuel
    have hseq : s = e := by omega
    subst hseq
    rw [foldLoop, lblocks, rblocks]
    simp
  | succ fuel ih =>
    intro s e l r h1 hse hel hfuel
    by_cases hseq : s = e
    · subst hseq
      rw [foldLoop, lblocks, rblocks]
      simp
    · have hlt : s < e := by omega
      rw [foldLoop, if_neg hseq]
      rw [lblocks, rblocks, if_pos hlt, if_pos hlt]
      have hnext1 : 1 ≤ nextS s := by simp only [nextS]; omega
      have hnext2 : nextS s ≤ e / 2 := by simp only [nextS]; omega
      have hnext3 : e / 2 ≤ tb.length := by
        have := Nat.div_le_self e 2
        omega
      have hnext4 : e / 2 - nextS s ≤ fuel := by simp only [nextS]; omega
      rcases Nat.mod_two_eq_zero_or_one s with hs | hs <;>
        rcases Nat.mod_two_eq_zero_or_one e with he | he
      · -- s even, e even
        unfold foldStepL foldStepR
        rw [if_neg (by omega), if_neg (by omega)]
        simp only []
        rw [show s / 2 = nextS s from by simp only [nextS]; omega]
        rw [ih (nextS s) (e / 2) l r hnext1 hnext2 hnext3 hnext4]
        simp [hs, he]
      · -- s even, e odd
        unfold foldStepL foldStepR
        rw [if_neg (by omega), if_pos (by omega),
          htv (e - 1) (by omega) (by omega)]
        simp only []
        rw [show s / 2 = nextS s from by simp only [nextS]; omega,
          show (e - 1) / 2 = e / 2 from by omega]
        rw [ih (nextS s) (e / 2) l (op (tv (e - 1)) r) hnext1 hnext2 hnext3
          hnext4]
        simp [hs, he, List.foldr_append]
      · -- s odd, e even
        unfold foldStepL foldStepR
        rw [if_pos (by omega), htv s (by omega) (by omega), if_neg (by omega)]
        simp only []
        rw [show (s + 1) / 2 = nextS s from rfl]
        rw [ih (nextS s) (e / 2) (op l (tv s)) r hnext1 hnext2 hnext3 hnext4]
        simp [hs, he]
      · -- s odd, e odd
        unfold foldStepL foldStepR
        rw [if_pos (by omega), htv s (by omega) (by omega), if_pos (by omega),
          htv (e - 1) (by omega) (by omega)]
        simp only []
        rw [show (s + 1) / 2 = nextS s from rfl,
          show (e - 1) / 2 = e / 2 from by omega]
        rw [ih (nextS s) (e / 2) (op l (tv s)) (op (tv (e - 1)) r) hnext1
          hnext2 hnext3 hnext4]
        simp [hs, he, List.foldr_append]


/-- `fold` on a well-formed tree computes the reference reduction. -/
theorem fold_ok {α : Type} (op : α → α → α) (idv : α)
    (hassoc : ∀ a b c, op (op a b) c = op a (op b c))
    (hidl : ∀ a, op idv a = a) (hidr : ∀ a, op a idv = a)
    (v : List α) (st : Segtree α) (hM : Models op idv v st)
    (s e : Nat) (hse : s ≤ e) (he : e ≤ v.length) :
    fold op idv st s e = some (refFold op idv v s e) := by
  obtain ⟨hlenq, hlen, hval⟩ := hM
  unfold fold
  rw [hlenq]
  by_cases hz : s + v.length = 0
  · have hv0 : v.length = 0 := by omega
    have hs0 : s = 0 := by omega
    have he0 : e = 0 := by omega
    subst hs0; subst he0
    rw [hv0, foldLoop]
    simp only [if_pos rfl]
    unfold refFold
    simp [hidl]
  · have hS1 : 1 ≤ s + v.length := by omega
    have htv : ∀ b, 1 ≤ b → b < st.table.length →
        lget st.table b = some (nodeVal op idv v b) := by
      intro b h1 h2
      exact hval b h1 (by omega)
    rw [foldLoop_eq_blocks op st.table (nodeVal op idv v) htv
      (e + v.length + 1) (s + v.length) (e + v.length) idv idv hS1
      (by omega) (by omega) (by omega)]
    congr 1
    rw [← List.foldl_map, ← List.foldr_map,
      foldr_op_eq_foldl op idv hassoc hidl hidr,
      ← foldl_op_append op idv hassoc hidl hidr, ← List.map_append]
    have hcov := blocks_cover v.length (s + v.length) (e + v.length) hS1
      (by omega) (by omega)
    have hleafmem : ∀ x ∈ List.range' (s + v.length)
        (e + v.length - (s + v.length)), v.length ≤ x ∧ 1 ≤ x := by
      intro x hx
      rw [List.mem_range'_1] at hx
      omega
    rw [coverOf_leaves v.length _ hleafmem] at hcov
    rw [show e + v.length - (s + v.length) = e - s from by omega,
      map_sub_range' v.length (e - s) s] at hcov
    have hch := chain_of_cover v.length
      (lblocks (s + v.length) (e + v.length) ++
        rblocks (s + v.length) (e + v.length)) s (e - s) ?_ hcov
    · rw [show s + (e - s) = e from by omega] at hch
      rw [chain_fold op idv hassoc hidl hidr v _ s e hch hse,
        refFold_eq_rfold op idv v s e he]
    · intro b hb
      rcases List.mem_append.mp hb with hb | hb
      · have := mem_lblocks (s + v.length) (e + v.length) hS1 b hb
        omega
      · have := mem_rblocks (s + v.length) (e + v.length) hS1 b hb
        omega


/-! ### Auxiliary lemmas for the claims -/

theorem leaves_length {α : Type} (st : Segtree α)
    (hlen : st.table.length = 2 * st.len) : (leaves st).length = st.len := by
  unfold leaves
  simp only [List.length_take, List.length_drop]
  omega

theorem rfold_set_ne {α : Type} (op : α → α → α) (idv : α) (v : List α)
    (i : Nat) (x : α) (s e : Nat) (h : ∀ j, s ≤ j → j < e → j ≠ i) :
    rfold op idv (v.set i x) s e = rfold op idv v s e := by
  unfold rfold
  congr 1
  apply List.map_congr_left
  intro j hj
  rw [List.mem_range'_1] at hj
  rw [List.getD_eq_getElem?_getD, List.getD_eq_getElem?_getD,
    List.getElem?_set_ne (fun hji => (h j hj.1 (by omega)) hji.symm)]

theorem setLoop_some {α : Type} (op : α → α → α) (n : Nat) :
    ∀ (j fuel : Nat) (tb : List α), j ≤ fuel → tb.length = 2 * n → j < n →
      ∃ tb', setLoop op tb fuel j = some tb' ∧ tb'.length = 2 * n := by
  intro j
  induction j using Nat.strong_induction_on with
  | _ j ihs =>
    intro fuel tb hfuel hlen hjn
    rcases Nat.eq_zero_or_pos j with h0 | hpos
    · subst h0
      refine ⟨tb, ?_, hlen⟩
      cases fuel with
      | zero => rw [setLoop]; simp
      | succ fuel => rw [setLoop]; simp
    · obtain ⟨j, rfl⟩ : ∃ j', j = j' + 1 := ⟨j - 1, by omega⟩
      obtain ⟨fuel, rfl⟩ : ∃ f', fuel = f' + 1 := ⟨fuel - 1, by omega⟩
      obtain ⟨va, ha⟩ : ∃ a, tb[2 * (j + 1)]? = some a :=
        ⟨_, List.getElem?_eq_getElem (by omega)⟩
      obtain ⟨vb, hb⟩ : ∃ a, tb[2 * (j + 1) + 1]? = some a :=
        ⟨_, List.getElem?_eq_getElem (by omega)⟩
      obtain ⟨tb', hrun, hlen'⟩ :=
        ihs ((j + 1) / 2) (by omega) fuel
          (tb.set (j + 1) (op va vb)) (by omega) (by simp [hlen])
          (by omega)
      refine ⟨tb', ?_, hlen'⟩
      rw [setLoop, if_neg (by omega)]
      unfold update lset
      rw [show lget tb (2 * (j + 1)) = _ from ha,
        show lget tb (2 * (j + 1) + 1) = _ from hb]
      simp only []
      rw [if_pos (by omega)]
      exact hrun

/-! ### Simulation of the forward search by a scan over the blocks -/

/-- The blocks examined by the second loop of `search_forward`, for
`p = d-1, ..., 0`: index `(origEnd >> p) - 1` whenever it is even. -/
def rlist (origEnd : Nat) : Nat → List Nat
  | 0 => []
  | p + 1 =>
    (if (origEnd / 2 ^ p - 1) % 2 = 0 then [origEnd / 2 ^ p - 1] else []) ++
      rlist origEnd p

/-- Packaging of a scan outcome as a phase-1 outcome. -/
def p1OfScan {α : Type} (shiftBase : Nat) (r : Option (Sum (α × Nat) α)) :
    Option (P1Out α) :=
  match r with
  | none => none
  | some (.inl (c, b)) => some (.descend c b)
  | some (.inr c) => some (.through c shiftBase)

/-- Packaging of a scan outcome as a second-loop outcome. -/
def topOfScan {α : Type} (r : Option (Sum (α × Nat) α)) :
    Option (Sum (α × Nat) Unit) :=
  match r with
  | none => none
  | some (.inl cb) => some (.inl cb)
  | some (.inr _) => some (.inr ())

theorem scanF_append {α : Type} (op : α → α → α) (tb : List α)
    (pred : α → Bool) :
    ∀ (xs ys : List Nat) (crr : α),
      scanF op tb pred (xs ++ ys) crr =
        match scanF op tb pred xs crr with
        | none => none
        | some (.inl r) => some (.inl r)
        | some (.inr c) => scanF op tb pred ys c := by
  intro xs
  induction xs with
  | nil => intro ys crr; rfl
  | cons b bs ih =>
    intro ys crr
    show scanF op tb pred (b :: (bs ++ ys)) crr = _
    rw [scanF, scanF]
    cases lget tb b with
    | none => rfl
    | some x =>
      simp only []
      by_cases hp : pred (op crr x)
      · rw [if_pos hp, if_pos hp, ih]
      · rw [if_neg hp, if_neg hp]

/-- Phase 1 of `search_forward` scans the left blocks. -/
theorem sfAsc_sim {α : Type} (op : α → α → α) (tb : List α)
    (pred : α → Bool) :
    ∀ (fuel s e shift : Nat) (crr : α), 1 ≤ s → s ≤ e → e - s ≤ fuel →
      sfAsc op tb pred fuel s e crr shift =
        p1OfScan (shift + lrDepth s e)
          (scanF op tb pred (lblocks s e) crr) := by
  intro fuel
  induction fuel with
  | zero =>
    intro s e shift crr h1 hse hf
    have hseq : s = e := by omega
    subst hseq
    rw [sfAsc, lblocks, lrDepth]
    simp [p1OfScan, scanF]
  | succ fuel ih =>
    intro s e shift crr h1 hse hf
    by_cases hseq : s = e
    · subst hseq
      rw [sfAsc, lblocks, lrDepth]
      simp [p1OfScan, scanF]
    · have hlt : s < e := by omega
      have hd : lrDepth s e = lrDepth (nextS s) (e / 2) + 1 := by
        rw [lrDepth, if_pos hlt]
      rw [sfAsc, if_neg hseq, lblocks, if_pos hlt]
      rcases Nat.mod_two_eq_zero_or_one s with hs | hs
      · rw [if_neg (by omega), if_neg (by omega)]
        simp only [List.nil_append]
        rw [show s / 2 = nextS s from by simp only [nextS]; omega]
        rw [ih (nextS s) (e / 2) (shift + 1) crr (by simp only [nextS]; omega)
          (by simp only [nextS]; omega) (by simp only [nextS]; omega)]
        rw [hd]
        congr 1
        omega
      · rw [if_pos hs, if_pos hs]
        simp only [List.singleton_append]
        rw [scanF]
        cases lget tb s with
        | none => rfl
        | some x =>
          simp only []
          by_cases hp : pred (op crr x)
          · rw [if_pos hp, if_pos hp]
            rw [show (s + 1) / 2 = nextS s from rfl]
            rw [ih (nextS s) (e / 2) (shift + 1) (op crr x)
              (by simp only [nextS]; omega) (by simp only [nextS]; omega)
              (by simp only [nextS]; omega)]
            rw [hd]
            congr 1
            omega
          · rw [if_neg hp, if_neg hp]
            rfl

/-- The second loop of `search_forward` scans `rlist`. -/
theorem sfTop_sim {α : Type} (op : α → α → α) (tb : List α)
    (pred : α → Bool) (origEnd : Nat) :
    ∀ (d : Nat) (crr : α),
      sfTop op tb pred origEnd d crr =
        topOfScan (scanF op tb pred (rlist origEnd d) crr) := by
  intro d
  induction d with
  | zero => intro crr; rfl
  | succ d ih =>
    intro crr
    rw [sfTop, rlist]
    by_cases hc : (origEnd / 2 ^ d - 1) % 2 = 0
    · rw [if_pos hc, if_pos hc]
      simp only [List.singleton_append]
      rw [scanF]
      cases lget tb (origEnd / 2 ^ d - 1) with
      | none => rfl
      | some x =>
        simp only []
        by_cases hp : pred (op crr x)
        · rw [if_pos hp, if_pos hp, ih]
        · rw [if_neg hp, if_neg hp]
          rfl
    · rw [if_neg hc, if_neg hc]
      simp only [List.nil_append]
      exact ih crr

/-- Unfolding `rlist` from the bottom level. -/
theorem rlist_snoc (origEnd : Nat) :
    ∀ d, rlist origEnd (d + 1) =
      rlist (origEnd / 2) d ++
        (if (origEnd - 1) % 2 = 0 then [origEnd - 1] else []) := by
  intro d
  induction d with
  | zero =>
    rw [rlist, rlist, rlist]
    simp
  | succ d ih =>
    rw [rlist, ih]
    rw [show rlist (origEnd / 2) (d + 1) =
      (if (origEnd / 2 / 2 ^ d - 1) % 2 = 0 then [origEnd / 2 / 2 ^ d - 1]
        else []) ++ rlist (origEnd / 2) d from by rw [rlist]]
    rw [Nat.div_div_eq_div_mul, ← pow_succ']
    rw [List.append_assoc]

/-- The right blocks of the walk are exactly the blocks of the second
loop. -/
theorem rblocks_eq_rlist :
    ∀ s e, 1 ≤ s → rblocks s e = rlist e (lrDepth s e) := by
  intro s e
  induction s, e using rblocks.induct with
  | case1 s e hlt ih =>
    intro h1
    rw [rblocks, if_pos hlt, lrDepth, if_pos hlt,
      ih (by simp only [nextS]; omega), rlist_snoc]
    congr 1
    rcases Nat.mod_two_eq_zero_or_one e with he | he
    · rw [if_neg (by omega), if_neg (by omega)]
    · rw [if_pos he, if_pos (by omega)]
  | case2 s e hlt =>
    intro h1
    have hd : lrDepth s e = 0 := by rw [lrDepth, if_neg hlt]
    rw [rblocks, if_neg hlt, hd, rlist]

/-- `search_forward` on a nonempty range is the scan of all blocks followed
by a subtree descent into the first failing block. -/
theorem searchForward_eq_scan {α : Type} (op : α → α → α) (idv : α)
    (st : Segtree α) (s e : Nat) (pred : α → Bool) (hne : s ≠ e)
    (hse : s ≤ e) (h1 : 1 ≤ s + st.len) :
    searchForward op idv st s e pred =
      match scanF op st.table pred
          (lblocks (s + st.len) (e + st.len) ++
            rblocks (s + st.len) (e + st.len)) idv with
      | none => none
      | some (.inl (c, b)) => ssf op st.table pred st.len (2 * st.len + 1) c b
      | some (.inr _) => some (e + st.len - st.len) := by
  unfold searchForward
  rw [if_neg hne]
  rw [sfAsc_sim op st.table pred (e + st.len + 1) (s + st.len) (e + st.len)
    0 idv h1 (by omega) (by omega)]
  rw [scanF_append]
  rcases hscan : scanF op st.table pred (lblocks (s + st.len) (e + st.len))
      idv with _ | r
  · rfl
  · rcases r with ⟨c, b⟩ | c
    · rfl
    · simp only [p1OfScan]
      rw [show (0 : Nat) + lrDepth (s + st.len) (e + st.len) =
        lrDepth (s + st.len) (e + st.len) from by omega]
      rw [sfTop_sim, ← rblocks_eq_rlist (s + st.len) (e + st.len) h1]
      rcases hscan2 : scanF op st.table pred
          (rblocks (s + st.len) (e + st.len)) c with _ | r2
      · rfl
      · rcases r2 with ⟨c2, b2⟩ | c2
        · rfl
        · rfl

/-! ### The claims -/

/-! ### Semantics of the scan and of the subtree descent -/

theorem rfold_empty {α : Type} (op : α → α → α) (idv : α) (v : List α)
    (s : Nat) : rfold op idv v s s = idv := by
  unfold rfold
  simp

/-- The blocks of a valid query tile `[s, e)`. -/
theorem blocks_chain (n s e : Nat) (h1 : 1 ≤ s + n) (hse : s ≤ e)
    (he : e ≤ n) :
    Chain n s (lblocks (s + n) (e + n) ++ rblocks (s + n) (e + n)) e := by
  have hcov := blocks_cover n (s + n) (e + n) h1 (by omega) (by omega)
  have hleafmem : ∀ x ∈ List.range' (s + n) (e + n - (s + n)),
      n ≤ x ∧ 1 ≤ x := by
    intro x hx
    rw [List.mem_range'_1] at hx
    omega
  rw [coverOf_leaves n _ hleafmem] at hcov
  rw [show e + n - (s + n) = e - s from by omega,
    map_sub_range' n (e - s) s] at hcov
  have hch := chain_of_cover n _ s (e - s) ?_ hcov
  · rw [show s + (e - s) = e from by omega] at hch
    exact hch
  · intro b hb
    rcases List.mem_append.mp hb with hb | hb
    · have := mem_lblocks (s + n) (e + n) h1 b hb
      omega
    · have := mem_rblocks (s + n) (e + n) h1 b hb
      omega

/-- Scanning a chain of blocks: either every block passes and the final
accumulator is the fold up to the chain's end, or the scan stops at the
first failing block with the fold up to that block as context. -/
theorem scanF_spec {α : Type} (op : α → α → α) (idv : α)
    (hassoc : ∀ a b c, op (op a b) c = op a (op b c))
    (hidl : ∀ a, op idv a = a) (hidr : ∀ a, op a idv = a)
    (v tb : List α) (hlen2 : tb.length = 2 * v.length)
    (htv : ∀ b, 1 ≤ b → b < tb.length →
      lget tb b = some (nodeVal op idv v b)) (pred : α → Bool) (s : Nat) :
    ∀ (bs : List Nat) (a c : Nat) (crr : α), Chain v.length a bs c →
      s ≤ a → crr = rfold op idv v s a → (a = s ∨ pred crr = true) →
      (∃ c', scanF op tb pred bs crr = some (.inr c') ∧
        c' = rfold op idv v s c ∧ (c = s ∨ pred c' = true)) ∨
      (∃ c' b a' m, scanF op tb pred bs crr = some (.inl (c', b)) ∧
        nodeIdxs v.length b = List.range' a' m ∧ 1 ≤ m ∧ 1 ≤ b ∧
        b < 2 * v.length ∧ s ≤ a' ∧ a' + m ≤ c ∧
        c' = rfold op idv v s a' ∧ (a' = s ∨ pred c' = true) ∧
        pred (rfold op idv v s (a' + m)) = false) := by
  intro bs
  induction bs with
  | nil =>
    intro a c crr hch hsa hcrr hst
    cases hch
    exact Or.inl ⟨crr, rfl, hcrr, hst⟩
  | cons b bs ih =>
    intro a c crr hch hsa hcrr hst
    cases hch with
    | cons _ m _ _ _ hidx hm hb1 hb2 hrest =>
      have hbv : lget tb b = some (nodeVal op idv v b) :=
        htv b hb1 (by omega)
      have hnv : nodeVal op idv v b = rfold op idv v a (a + m) :=
        nodeVal_of_range op idv v b a m hidx
      have hnxt : op crr (nodeVal op idv v b) = rfold op idv v s (a + m) := by
        rw [hnv, hcrr]
        exact rfold_append op idv hassoc hidl hidr v s a (a + m) hsa
          (by omega)
      rw [scanF, hbv]
      simp only []
      by_cases hp : pred (op crr (nodeVal op idv v b)) = true
      · rw [if_pos hp]
        exact ih (a + m) c (op crr (nodeVal op idv v b)) hrest (by omega)
          (by rw [hnxt]) (Or.inr hp)
      · rw [if_neg hp]
        refine Or.inr ⟨crr, b, a, m, rfl, hidx, hm, hb1, hb2, hsa,
          chain_le v.length bs (a + m) c hrest, hcrr, hst, ?_⟩
        rw [← hnxt]
        exact Bool.not_eq_true _ ▸ (Bool.eq_false_iff.mpr hp)

/-- The subtree descent: starting inside a block on which the predicate
fails, it returns the exact boundary position. -/
theorem ssf_spec {α : Type} (op : α → α → α) (idv : α)
    (hassoc : ∀ a b c, op (op a b) c = op a (op b c))
    (hidl : ∀ a, op idv a = a) (hidr : ∀ a, op a idv = a)
    (v tb : List α) (hlen2 : tb.length = 2 * v.length)
    (htv : ∀ b, 1 ≤ b → b < tb.length →
      lget tb b = some (nodeVal op idv v b)) (pred : α → Bool) (s : Nat) :
    ∀ (fuel b a m : Nat) (crr : α), 2 * v.length - b ≤ fuel →
      nodeIdxs v.length b = List.range' a m → 1 ≤ m → 1 ≤ b →
      b < 2 * v.length → s ≤ a → crr = rfold op idv v s a →
      (a = s ∨ pred crr = true) →
      pred (rfold op idv v s (a + m)) = false →
      ∃ q, ssf op tb pred v.length fuel crr b = some q ∧ a ≤ q ∧
        q < a + m ∧ (q = s ∨ pred (rfold op idv v s q) = true) ∧
        pred (rfold op idv v s (q + 1)) = false := by
  intro fuel
  induction fuel with
  | zero =>
    intro b a m crr hfuel hidx hm hb1 hb2 hsa hcrr hst hfail
    omega
  | succ fuel ih =>
    intro b a m crr hfuel hidx hm hb1 hb2 hsa hcrr hst hfail
    by_cases hbn : b < v.length
    · have hsplit : List.range' a m =
          nodeIdxs v.length (2 * b) ++ nodeIdxs v.length (2 * b + 1) := by
        rw [← hidx]
        exact nodeIdxs_node v.length b hb1 hbn
      rw [List.range'_eq_append_iff] at hsplit
      obtain ⟨k, hk, hidxl, hidxr⟩ := hsplit
      have hk1 : 1 ≤ k := by
        rcases Nat.eq_zero_or_pos k with h0 | h
        · subst h0
          exact absurd hidxl
            (by simp [nodeIdxs_ne_nil v.length (2 * b) (by omega)])
        · exact h
      have hmk1 : 1 ≤ m - k := by
        rcases Nat.lt_or_ge k m with h | h
        · omega
        · exfalso
          have hz : m - k = 0 := by omega
          rw [hz] at hidxr
          exact nodeIdxs_ne_nil v.length (2 * b + 1) (by omega)
            (by simpa using hidxr)
      have hbv : lget tb (2 * b) = some (nodeVal op idv v (2 * b)) :=
        htv (2 * b) (by omega) (by omega)
      have hnxt : op crr (nodeVal op idv v (2 * b)) =
          rfold op idv v s (a + k) := by
        rw [nodeVal_of_range op idv v (2 * b) a k hidxl, hcrr]
        exact rfold_append op idv hassoc hidl hidr v s a (a + k) hsa
          (by omega)
      rw [ssf, if_pos hbn, hbv]
      simp only []
      by_cases hp : pred (op crr (nodeVal op idv v (2 * b))) = true
      · rw [if_pos hp]
        have hres := ih (2 * b + 1) (a + k) (m - k)
          (op crr (nodeVal op idv v (2 * b))) (by omega) hidxr hmk1
          (by omega) (by omega) (by omega) (by rw [hnxt]) (Or.inr hp)
          (by rw [show a + k + (m - k) = a + m from by omega]; exact hfail)
        obtain ⟨q, hq, hq1, hq2, hq3, hq4⟩ := hres
        exact ⟨q, hq, by omega, by omega, hq3, hq4⟩
      · rw [if_neg hp]
        have hpf : pred (rfold op idv v s (a + k)) = false := by
          rw [← hnxt]
          exact Bool.eq_false_iff.mpr hp
        have hres := ih (2 * b) a k crr (by omega) hidxl hk1
          (by omega) (by omega) hsa hcrr hst hpf
        obtain ⟨q, hq, hq1, hq2, hq3, hq4⟩ := hres
        exact ⟨q, hq, hq1, by omega, hq3, hq4⟩
    · have hleaf : nodeIdxs v.length b = [b - v.length] :=
        nodeIdxs_leaf v.length b (by omega) (by omega)
      rw [hleaf] at hidx
      have hm1 : m = 1 := by
        have := congrArg List.length hidx
        simpa using this.symm
      subst hm1
      rw [List.range'_one] at hidx
      have ha : a = b - v.length := by
        have := List.head_eq_of_cons_eq hidx
        omega
      rw [ssf, if_neg hbn]
      exact ⟨b - v.length, rfl, by omega, by omega,
        by rw [← ha, ← hcrr]; exact hst,
        by rw [show b - v.length + 1 = a + 1 from by omega]; exact hfail⟩

/-- Full characterisation of `search_forward` on a valid range: the result
`q` satisfies the boundary conditions actually tested by the code (no
monotonicity needed for this part). -/
theorem searchForward_spec {α : Type} (op : α → α → α) (idv : α)
    (hassoc : ∀ a b c, op (op a b) c = op a (op b c))
    (hidl : ∀ a, op idv a = a) (hidr : ∀ a, op a idv = a)
    (v : List α) (st : Segtree α) (hM : Models op idv v st)
    (s e : Nat) (hse : s ≤ e) (he : e ≤ v.length) (pred : α → Bool) :
    ∃ q, searchForward op idv st s e pred = some q ∧ s ≤ q ∧ q ≤ e ∧
      (q = s ∨ pred (rfold op idv v s q) = true) ∧
      (q < e → pred (rfold op idv v s (q + 1)) = false) := by
  obtain ⟨hlenq, hlen, hval⟩ := hM
  by_cases hseq : s = e
  · subst hseq
    refine ⟨s, ?_, by omega, by omega, Or.inl rfl, by omega⟩
    unfold searchForward
    simp
  · have hslt : s < e := by omega
    have hn1 : 1 ≤ v.length := by omega
    have htv : ∀ b, 1 ≤ b → b < st.table.length →
        lget st.table b = some (nodeVal op idv v b) := by
      intro b h1 h2
      exact hval b h1 (by omega)
    rw [searchForward_eq_scan op idv st s e pred hseq hse (by omega)]
    rw [hlenq]
    have hch := blocks_chain v.length s e (by omega) hse he
    have hspec := scanF_spec op idv hassoc hidl hidr v st.table hlen htv
      pred s (lblocks (s + v.length) (e + v.length) ++
        rblocks (s + v.length) (e + v.length)) s e idv hch (le_refl s)
      (by rw [rfold_empty]) (Or.inl rfl)
    rcases hspec with ⟨c', hrun, hc', hcp⟩ | ⟨c', b, a', m, hrun, hidx, hm,
        hb1, hb2, hsa, hme, hcrr, hstp, hfail⟩
    · rw [hrun]
      refine ⟨e + v.length - v.length, rfl, by omega, by omega, ?_, by omega⟩
      rcases hcp with h | h
      · omega
      · rw [show e + v.length - v.length = e from by omega]
        right
        rw [← hc']
        exact h
    · rw [hrun]
      obtain ⟨q, hq, hq1, hq2, hq3, hq4⟩ := ssf_spec op idv hassoc hidl hidr
        v st.table hlen htv pred s (2 * v.length + 1) b a' m c' (by omega)
        hidx hm hb1 hb2 hsa hcrr hstp hfail
      exact ⟨q, hq, by omega, by omega, hq3, fun _ => hq4⟩

/-! ### Simulation of the backward search by a reversed scan -/

/-- The right blocks in the order the backward walk meets them (deepest,
i.e. rightmost, first): the reverse of `rblocks`. -/
def rbRev (s e : Nat) : List Nat :=
  if s < e then (if e % 2 = 1 then [e - 1] else []) ++ rbRev (nextS s) (e / 2)
  else []
termination_by e - s
decreasing_by simp only [nextS]; omega

/-- The blocks examined by the second loop of `search_backward`, for
`p = d-1, ..., 0`: index `(origStartM1 >> p) + 1` whenever it is odd. -/
def lbRev (m1 : Nat) : Nat → List Nat
  | 0 => []
  | p + 1 =>
    (if (m1 / 2 ^ p + 1) % 2 = 1 then [m1 / 2 ^ p + 1] else []) ++ lbRev m1 p

theorem rbRev_eq_reverse :
    ∀ s e, rbRev s e = (rblocks s e).reverse := by
  intro s e
  induction s, e using rblocks.induct with
  | case1 s e hlt ih =>
    rw [rbRev, if_pos hlt, rblocks, if_pos hlt, List.reverse_append, ih]
    congr 1
    rcases Nat.mod_two_eq_zero_or_one e with he | he <;> simp [he]
  | case2 s e hlt =>
    rw [rbRev, if_neg hlt, rblocks, if_neg hlt]
    rfl

theorem lbRev_snoc (d : Nat) :
    ∀ m1, lbRev m1 (d + 1) =
      lbRev (m1 / 2) d ++ (if (m1 + 1) % 2 = 1 then [m1 + 1] else []) := by
  induction d with
  | zero =>
    intro m1
    rw [lbRev, lbRev, lbRev]
    simp
  | succ d ih =>
    intro m1
    rw [lbRev, ih m1]
    rw [show lbRev (m1 / 2) (d + 1) =
      (if (m1 / 2 / 2 ^ d + 1) % 2 = 1 then [m1 / 2 / 2 ^ d + 1] else []) ++
        lbRev (m1 / 2) d from by rw [lbRev]]
    rw [Nat.div_div_eq_div_mul, ← pow_succ']
    rw [List.append_assoc]

theorem lblocks_rev_eq :
    ∀ s e, 1 ≤ s → (lblocks s e).reverse = lbRev (s - 1) (lrDepth s e) := by
  intro s e
  induction s, e using lblocks.induct with
  | case1 s e hlt ih =>
    intro h1
    rw [lblocks, if_pos hlt, lrDepth, if_pos hlt, List.reverse_append,
      ih (by simp only [nextS]; omega), lbRev_snoc]
    rw [show s - 1 + 1 = s from by omega,
      show (s - 1) / 2 = nextS s - 1 from by simp only [nextS]; omega]
    congr 1
    rcases Nat.mod_two_eq_zero_or_one s with hs | hs <;> simp [hs]
  | case2 s e hlt =>
    intro h1
    have hd : lrDepth s e = 0 := by rw [lrDepth, if_neg hlt]
    rw [lblocks, if_neg hlt, hd, lbRev]
    rfl

theorem scanBk_append {α : Type} (op : α → α → α) (tb : List α)
    (pred : α → Bool) :
    ∀ (xs ys : List Nat) (crr : α),
      scanBk op tb pred (xs ++ ys) crr =
        match scanBk op tb pred xs crr with
        | none => none
        | some (.inl r) => some (.inl r)
        | some (.inr c) => scanBk op tb pred ys c := by
  intro xs
  induction xs with
  | nil => intro ys crr; rfl
  | cons b bs ih =>
    intro ys crr
    show scanBk op tb pred (b :: (bs ++ ys)) crr = _
    rw [scanBk, scanBk]
    cases lget tb b with
    | none => rfl
    | some x =>
      simp only []
      by_cases hp : pred (op x crr)
      · rw [if_pos hp, if_pos hp, ih]
      · rw [if_neg hp, if_neg hp]

/-- Phase 1 of `search_backward` scans the right blocks from the right. -/
theorem sbAsc_sim {α : Type} (op : α → α → α) (tb : List α)
    (pred : α → Bool) :
    ∀ (fuel s e shift : Nat) (crr : α), 1 ≤ s → s ≤ e → e - s ≤ fuel →
      sbAsc op tb pred fuel s e crr shift =
        p1OfScan (shift + lrDepth s e)
          (scanBk op tb pred (rbRev s e) crr) := by
  intro fuel
  induction fuel with
  | zero =>
    intro s e shift crr h1 hse hf
    have hseq : s = e := by omega
    subst hseq
    rw [sbAsc, rbRev, lrDepth]
    simp [p1OfScan, scanBk]
  | succ fuel ih =>
    intro s e shift crr h1 hse hf
    by_cases hseq : s = e
    · subst hseq
      rw [sbAsc, rbRev, lrDepth]
      simp [p1OfScan, scanBk]
    · have hlt : s < e := by omega
      have hd : lrDepth s e = lrDepth (nextS s) (e / 2) + 1 := by
        rw [lrDepth, if_pos hlt]
      rw [sbAsc, if_neg hseq, rbRev, if_pos hlt]
      rcases Nat.mod_two_eq_zero_or_one e with he | he
      · rw [if_neg (by omega), if_neg (by omega)]
        simp only [List.nil_append]
        rw [show (s + 1) / 2 = nextS s from rfl]
        rw [ih (nextS s) (e / 2) (shift + 1) crr (by simp only [nextS]; omega)
          (by simp only [nextS]; omega) (by simp only [nextS]; omega)]
        rw [hd]
        congr 1
        omega
      · rw [if_pos he, if_pos he]
        simp only [List.singleton_append]
        rw [scanBk]
        cases lget tb (e - 1) with
        | none => rfl
        | some x =>
          simp only []
          by_cases hp : pred (op x crr)
          · rw [if_pos hp, if_pos hp]
            rw [show (s + 1) / 2 = nextS s from rfl,
              show (e - 1) / 2 = e / 2 from by omega]
            rw [ih (nextS s) (e / 2) (shift + 1) (op x crr)
              (by simp only [nextS]; omega) (by simp only [nextS]; omega)
              (by simp only [nextS]; omega)]
            rw [hd]
            congr 1
            omega
          · rw [if_neg hp, if_neg hp]
            rfl

/-- The second loop of `search_backward` scans `lbRev`. -/
theorem sbTop_sim {α : Type} (op : α → α → α) (tb : List α)
    (pred : α → Bool) (m1 : Nat) :
    ∀ (d : Nat) (crr : α),
      sbTop op tb pred m1 d crr =
        topOfScan (scanBk op tb pred (lbRev m1 d) crr) := by
  intro d
  induction d with
  | zero => intro crr; rfl
  | succ d ih =>
    intro crr
    rw [sbTop, lbRev]
    by_cases hc : (m1 / 2 ^ d + 1) % 2 = 1
    · rw [if_pos hc, if_pos hc]
      simp only [List.singleton_append]
      rw [scanBk]
      cases lget tb (m1 / 2 ^ d + 1) with
      | none => rfl
      | some x =>
        simp only []
        by_cases hp : pred (op x crr)
        · rw [if_pos hp, if_pos hp, ih]
        · rw [if_neg hp, if_neg hp]
          rfl
    · rw [if_neg hc, if_neg hc]
      simp only [List.nil_append]
      exact ih crr

/-- `search_backward` on a nonempty range is the right-to-left scan of all
blocks followed by a subtree descent into the first failing block. -/
theorem searchBackward_eq_scan {α : Type} (op : α → α → α) (idv : α)
    (st : Segtree α) (s e : Nat) (pred : α → Bool) (hne : s ≠ e)
    (hse : s ≤ e) (h1 : 1 ≤ s + st.len) :
    searchBackward op idv st s e pred =
      match scanBk op st.table pred
          ((lblocks (s + st.len) (e + st.len) ++
            rblocks (s + st.len) (e + st.len)).reverse) idv with
      | none => none
      | some (.inl (c, b)) => ssb op st.table pred st.len (2 * st.len + 1) c b
      | some (.inr _) => some (s + st.len - 1 + 1 - st.len) := by
  unfold searchBackward
  rw [if_neg hne]
  rw [sbAsc_sim op st.table pred (e + st.len + 1) (s + st.len) (e + st.len)
    0 idv h1 (by omega) (by omega)]
  rw [List.reverse_append, scanBk_append, ← rbRev_eq_reverse]
  rcases hscan : scanBk op st.table pred (rbRev (s + st.len) (e + st.len))
      idv with _ | r
  · rfl
  · rcases r with ⟨c, b⟩ | c
    · rfl
    · simp only [p1OfScan]
      rw [show (0 : Nat) + lrDepth (s + st.len) (e + st.len) =
        lrDepth (s + st.len) (e + st.len) from by omega]
      rw [sbTop_sim,
        show lbRev (s + st.len - 1) (lrDepth (s + st.len) (e + st.len)) =
          (lblocks (s + st.len) (e + st.len)).reverse from
          (lblocks_rev_eq (s + st.len) (e + st.len) h1).symm]
      rcases hscan2 : scanBk op st.table pred
          (lblocks (s + st.len) (e + st.len)).reverse c with _ | r2
      · rfl
      · rcases r2 with ⟨c2, b2⟩ | c2
        · rfl
        · rfl

/-! ### The claims -/

/-! ### Semantics of the backward scan and descent -/

/-- `RChain n c bs a`: the blocks `bs`, taken in order, cover the
contiguous positions `[a, c)` from the right end inwards. -/
inductive RChain (n : Nat) : Nat → List Nat → Nat → Prop
  | nil : ∀ c, RChain n c [] c
  | cons : ∀ c m b bs a, nodeIdxs n b = List.range' (c - m) m → 1 ≤ m →
      m ≤ c → 1 ≤ b → b < 2 * n → RChain n (c - m) bs a →
      RChain n c (b :: bs) a

theorem rchain_le (n : Nat) :
    ∀ (bs : List Nat) (c a : Nat), RChain n c bs a → a ≤ c := by
  intro bs
  induction bs with
  | nil =>
    intro c a h
    cases h
    omega
  | cons b bs ih =>
    intro c a h
    cases h with
    | cons _ m _ _ _ _ _ _ _ _ hrest =>
      have := ih _ _ hrest
      omega

theorem rchain_snoc (n : Nat) :
    ∀ (l : List Nat) (c x : Nat), RChain n c l x →
      ∀ (b a m : Nat), nodeIdxs n b = List.range' a m → a + m = x →
        1 ≤ m → 1 ≤ b → b < 2 * n → RChain n c (l ++ [b]) a := by
  intro l
  induction l with
  | nil =>
    intro c x hch b a m hidx ham hm hb1 hb2
    cases hch
    refine RChain.cons c m b [] a ?_ hm (by omega) hb1 hb2 ?_
    · rw [hidx]
      congr 1
      omega
    · rw [show c - m = a from by omega]
      exact RChain.nil a
  | cons b0 l ih =>
    intro c x hch b a m hidx ham hm hb1 hb2
    cases hch with
    | cons _ m0 _ _ _ hidx0 hm0 hm0c hb01 hb02 hrest =>
      have hax : a ≤ x := by omega
      have hxc : x ≤ c - m0 := rchain_le n l (c - m0) x hrest
      refine RChain.cons c m0 b0 (l ++ [b]) a hidx0 hm0 hm0c hb01 hb02 ?_
      exact ih (c - m0) x hrest b a m hidx ham hm hb1 hb2

/-- A left-to-right chain reversed is a right-to-left chain. -/
theorem chain_to_rchain (n : Nat) :
    ∀ (bs : List Nat) (a c : Nat), Chain n a bs c →
      RChain n c bs.reverse a := by
  intro bs
  induction bs with
  | nil =>
    intro a c h
    cases h
    exact RChain.nil a
  | cons b bs ih =>
    intro a c h
    cases h with
    | cons _ m _ _ _ hidx hm hb1 hb2 hrest =>
      rw [List.reverse_cons]
      exact rchain_snoc n bs.reverse c (a + m) (ih (a + m) c hrest) b a m
        hidx rfl hm hb1 hb2

/-- Scanning a right-to-left chain of blocks with the suffix
accumulation. -/
theorem scanBk_spec {α : Type} (op : α → α → α) (idv : α)
    (hassoc : ∀ a b c, op (op a b) c = op a (op b c))
    (hidl : ∀ a, op idv a = a) (hidr : ∀ a, op a idv = a)
    (v tb : List α) (hlen2 : tb.length = 2 * v.length)
    (htv : ∀ b, 1 ≤ b → b < tb.length →
      lget tb b = some (nodeVal op idv v b)) (pred : α → Bool) (e : Nat) :
    ∀ (bs : List Nat) (c a : Nat) (crr : α), RChain v.length c bs a →
      c ≤ e → crr = rfold op idv v c e → (c = e ∨ pred crr = true) →
      (∃ c', scanBk op tb pred bs crr = some (.inr c') ∧
        c' = rfold op idv v a e ∧ (a = e ∨ pred c' = true)) ∨
      (∃ c' b r m, scanBk op tb pred bs crr = some (.inl (c', b)) ∧
        nodeIdxs v.length b = List.range' (r - m) m ∧ 1 ≤ m ∧ m ≤ r ∧
        1 ≤ b ∧ b < 2 * v.length ∧ a ≤ r - m ∧ r ≤ e ∧
        c' = rfold op idv v r e ∧ (r = e ∨ pred c' = true) ∧
        pred (rfold op idv v (r - m) e) = false) := by
  intro bs
  induction bs with
  | nil =>
    intro c a crr hch hce hcrr hst
    cases hch
    exact Or.inl ⟨crr, rfl, hcrr, hst⟩
  | cons b bs ih =>
    intro c a crr hch hce hcrr hst
    cases hch with
    | cons _ m _ _ _ hidx hm hmc hb1 hb2 hrest =>
      have hbv : lget tb b = some (nodeVal op idv v b) :=
        htv b hb1 (by omega)
      have hnv : nodeVal op idv v b = rfold op idv v (c - m) c := by
        have := nodeVal_of_range op idv v b (c - m) m hidx
        rw [this]
        congr 1
        omega
      have hnxt : op (nodeVal op idv v b) crr = rfold op idv v (c - m) e := by
        rw [hnv, hcrr]
        exact rfold_append op idv hassoc hidl hidr v (c - m) c e (by omega)
          hce
      rw [scanBk, hbv]
      simp only []
      by_cases hp : pred (op (nodeVal op idv v b) crr) = true
      · rw [if_pos hp]
        exact ih (c - m) a (op (nodeVal op idv v b) crr) hrest (by omega)
          (by rw [hnxt]) (Or.inr hp)
      · rw [if_neg hp]
        refine Or.inr ⟨crr, b, c, m, rfl, hidx, hm, hmc, hb1, hb2,
          rchain_le v.length bs (c - m) a hrest, hce, hcrr, hst, ?_⟩
        rw [← hnxt]
        exact Bool.eq_false_iff.mpr hp

/-- The backward subtree descent returns the exact suffix boundary. -/
theorem ssb_spec {α : Type} (op : α → α → α) (idv : α)
    (hassoc : ∀ a b c, op (op a b) c = op a (op b c))
    (hidl : ∀ a, op idv a = a) (hidr : ∀ a, op a idv = a)
    (v tb : List α) (hlen2 : tb.length = 2 * v.length)
    (htv : ∀ b, 1 ≤ b → b < tb.length →
      lget tb b = some (nodeVal op idv v b)) (pred : α → Bool) (e : Nat) :
    ∀ (fuel b r m : Nat) (crr : α), 2 * v.length - b ≤ fuel →
      nodeIdxs v.length b = List.range' (r - m) m → 1 ≤ m → m ≤ r →
      1 ≤ b → b < 2 * v.length → r ≤ e → crr = rfold op idv v r e →
      (r = e ∨ pred crr = true) →
      pred (rfold op idv v (r - m) e) = false →
      ∃ q, ssb op tb pred v.length fuel crr b = some q ∧ r - m < q ∧
        q ≤ r ∧ (q = e ∨ pred (rfold op idv v q e) = true) ∧
        pred (rfold op idv v (q - 1) e) = false := by
  intro fuel
  induction fuel with
  | zero =>
    intro b r m crr hfuel hidx hm hmr hb1 hb2 hre hcrr hst hfail
    omega
  | succ fuel ih =>
    intro b r m crr hfuel hidx hm hmr hb1 hb2 hre hcrr hst hfail
    by_cases hbn : b < v.length
    · have hsplit : List.range' (r - m) m =
          nodeIdxs v.length (2 * b) ++ nodeIdxs v.length (2 * b + 1) := by
        rw [← hidx]
        exact nodeIdxs_node v.length b hb1 hbn
      rw [List.range'_eq_append_iff] at hsplit
      obtain ⟨k, hk, hidxl, hidxr⟩ := hsplit
      have hk1 : 1 ≤ k := by
        rcases Nat.eq_zero_or_pos k with h0 | h
        · subst h0
          exact absurd hidxl
            (by simp [nodeIdxs_ne_nil v.length (2 * b) (by omega)])
        · exact h
      have hmk1 : 1 ≤ m - k := by
        rcases Nat.lt_or_ge k m with h | h
        · omega
        · exfalso
          have hz : m - k = 0 := by omega
          rw [hz] at hidxr
          exact nodeIdxs_ne_nil v.length (2 * b + 1) (by omega)
            (by simpa using hidxr)
      have hbv : lget tb (2 * b + 1) =
          some (nodeVal op idv v (2 * b + 1)) :=
        htv (2 * b + 1) (by omega) (by omega)
      have hidxr' : nodeIdxs v.length (2 * b + 1) =
          List.range' (r - (m - k)) (m - k) := by
        rw [hidxr]
        congr 1
        omega
      have hnxt : op (nodeVal op idv v (2 * b + 1)) crr =
          rfold op idv v (r - (m - k)) e := by
        rw [nodeVal_of_range op idv v (2 * b + 1) (r - (m - k)) (m - k)
          hidxr', hcrr, show r - (m - k) + (m - k) = r from by omega]
        exact rfold_append op idv hassoc hidl hidr v (r - (m - k)) r e
          (by omega) hre
      rw [ssb, if_pos hbn, hbv]
      simp only []
      by_cases hp : pred (op (nodeVal op idv v (2 * b + 1)) crr) = true
      · rw [if_pos hp]
        have hidxl' : nodeIdxs v.length (2 * b) =
            List.range' ((r - (m - k)) - k) k := by
          rw [hidxl]
          congr 1
          omega
        have hres := ih (2 * b) (r - (m - k)) k
          (op (nodeVal op idv v (2 * b + 1)) crr) (by omega) hidxl' hk1
          (by omega) (by omega) (by omega) (by omega) (by rw [hnxt])
          (Or.inr hp)
          (by rw [show r - (m - k) - k = r - m from by omega]; exact hfail)
        obtain ⟨q, hq, hq1, hq2, hq3, hq4⟩ := hres
        exact ⟨q, hq, by omega, by omega, hq3, hq4⟩
      · rw [if_neg hp]
        have hpf : pred (rfold op idv v (r - (m - k)) e) = false := by
          rw [← hnxt]
          exact Bool.eq_false_iff.mpr hp
        have hres := ih (2 * b + 1) r (m - k) crr (by omega) hidxr' hmk1
          (by omega) (by omega) (by omega) hre hcrr hst hpf
        obtain ⟨q, hq, hq1, hq2, hq3, hq4⟩ := hres
        exact ⟨q, hq, by omega, hq2, hq3, hq4⟩
    · have hleaf : nodeIdxs v.length b = [b - v.length] :=
        nodeIdxs_leaf v.length b (by omega) (by omega)
      rw [hleaf] at hidx
      have hm1 : m = 1 := by
        have := congrArg List.length hidx
        simpa using this.symm
      subst hm1
      rw [List.range'_one] at hidx
      have ha : r - 1 = b - v.length := by
        have := List.head_eq_of_cons_eq hidx
        omega
      rw [ssb, if_neg hbn]
      refine ⟨b + 1 - v.length, rfl, by omega, by omega, ?_, ?_⟩
      · rw [show b + 1 - v.length = r from by omega, ← hcrr]
        exact hst
      · rw [show b + 1 - v.length - 1 = r - 1 from by omega]
        exact hfail

/-- Full characterisation of `search_backward` on a valid range. -/
theorem searchBackward_spec {α : Type} (op : α → α → α) (idv : α)
    (hassoc : ∀ a b c, op (op a b) c = op a (op b c))
    (hidl : ∀ a, op idv a = a) (hidr : ∀ a, op a idv = a)
    (v : List α) (st : Segtree α) (hM : Models op idv v st)
    (s e : Nat) (hse : s ≤ e) (he : e ≤ v.length) (pred : α → Bool) :
    ∃ q, searchBackward op idv st s e pred = some q ∧ s ≤ q ∧ q ≤ e ∧
      (q = e ∨ pred (rfold op idv v q e) = true) ∧
      (s < q → pred (rfold op idv v (q - 1) e) = false) := by
  obtain ⟨hlenq, hlen, hval⟩ := hM
  by_cases hseq : s = e
  · subst hseq
    refine ⟨s, ?_, by omega, by omega, Or.inl rfl, by omega⟩
    unfold searchBackward
    simp
  · have hslt : s < e := by omega
    have hn1 : 1 ≤ v.length := by omega
    have htv : ∀ b, 1 ≤ b → b < st.table.length →
        lget st.table b = some (nodeVal op idv v b) := by
      intro b h1 h2
      exact hval b h1 (by omega)
    rw [searchBackward_eq_scan op idv st s e pred hseq hse (by omega)]
    rw [hlenq]
    have hch := blocks_chain v.length s e (by omega) hse he
    have hrch := chain_to_rchain v.length _ s e hch
    have hspec := scanBk_spec op idv hassoc hidl hidr v st.table hlen htv
      pred e ((lblocks (s + v.length) (e + v.length) ++
        rblocks (s + v.length) (e + v.length)).reverse) e s idv hrch
      (le_refl e) (by rw [rfold_empty]) (Or.inl rfl)
    rcases hspec with ⟨c', hrun, hc', hcp⟩ | ⟨c', b, r, m, hrun, hidx, hm,
        hmr, hb1, hb2, hsr, hre, hcrr, hstp, hfail⟩
    · rw [hrun]
      refine ⟨s + v.length - 1 + 1 - v.length, rfl, by omega, by omega,
        ?_, by omega⟩
      rcases hcp with h | h
      · omega
      · rw [show s + v.length - 1 + 1 - v.length = s from by omega]
        right
        rw [← hc']
        exact h
    · rw [hrun]
      obtain ⟨q, hq, hq1, hq2, hq3, hq4⟩ := ssb_spec op idv hassoc hidl hidr
        v st.table hlen htv pred e (2 * v.length + 1) b r m c' (by omega)
        hidx hm hmr hb1 hb2 hre hcrr hstp hfail
      exact ⟨q, hq, by omega, by omega, hq3, fun _ => hq4⟩

/-! ### The claims -/

/-- C1: for every sequence `v` over an associative (possibly
non-commutative) operation with identity and every range `0 ≤ s ≤ e ≤ n`,
`fold` on the tree built from `v` over `[s, e)` equals the left-to-right
reference reduction of `v[s..e]`; in particular an empty range returns the
identity element. -/
theorem c1_fold_matches_reference {α : Type} (op : α → α → α) (idv : α)
    (hassoc : ∀ a b c, op (op a b) c = op a (op b c))
    (hidl : ∀ a, op idv a = a) (hidr : ∀ a, op a idv = a)
    (src : List α) (st : Segtree α) (hbuild : fromSlice op src = some st)
    (s e : Nat) (hse : s ≤ e) (he : e ≤ src.length) :
    fold op idv st s e = some (refFold op idv src s e) ∧
      fold op idv st s s = some idv := by
  obtain ⟨st₀, hb₀, hlen₀, hInv₀, hleaves₀⟩ := fromSlice_ok op src
  rw [hbuild] at hb₀
  obtain rfl : st = st₀ := Option.some.inj hb₀
  have hM := inv_models op idv hassoc hidl hidr st hInv₀
  rw [hleaves₀] at hM
  constructor
  · exact fold_ok op idv hassoc hidl hidr src st hM s e hse he
  · rw [fold_ok op idv hassoc hidl hidr src st hM s s (le_refl s) (by omega)]
    congr 1
    unfold refFold
    simp

/-- Witness for C1 at the sum monoid on `[1, 2, 3]`, range `1..3`. -/
theorem c1_witness :
    fold Nat.add 0 ⟨3, [1, 6, 5, 1, 2, 3]⟩ 1 3 =
        some (refFold Nat.add 0 [1, 2, 3] 1 3) ∧
      fold Nat.add 0 (⟨3, [1, 6, 5, 1, 2, 3]⟩ : Segtree Nat) 1 1 = some 0 :=
  c1_fold_matches_reference Nat.add 0 Nat.add_assoc Nat.zero_add Nat.add_zero
    [1, 2, 3] ⟨3, [1, 6, 5, 1, 2, 3]⟩ (by decide) 1 3 (by decide) (by decide)

/-- C4: after construction, and after every successful `set` with
`i < n` on an invariant-satisfying tree, the tree invariant holds (every
internal node combines its children), the table length is exactly `2 n`,
and `n` is unchanged. -/
theorem c4_invariant_after_build_and_set {α : Type} (op : α → α → α)
    (src : List α) (st₀ : Segtree α) (hbuild : fromSlice op src = some st₀)
    (st st' : Segtree α) (i : Nat) (x : α) (hInv : Inv op st)
    (hi : i < st.len) (hset : setAt op st i x = some st') :
    (Inv op st₀ ∧ st₀.len = src.length ∧ st₀.table.length = 2 * st₀.len) ∧
      (Inv op st' ∧ st'.len = st.len ∧ st'.table.length = 2 * st'.len) := by
  obtain ⟨st₁, hb₁, hlen₁, hInv₁, _⟩ := fromSlice_ok op src
  rw [hbuild] at hb₁
  obtain rfl : st₀ = st₁ := Option.some.inj hb₁
  obtain ⟨st₂, hs₂, hlen₂, hInv₂, _⟩ := setAt_ok op st i x hInv hi
  rw [hset] at hs₂
  obtain rfl : st' = st₂ := Option.some.inj hs₂
  exact ⟨⟨hInv₁, hlen₁, hInv₁.1⟩, ⟨hInv₂, hlen₂, hInv₂.1⟩⟩

/-- Witness for C4: build from `[1, 2, 3]`, and `set 2 10` on the tree over
`[1, 2, 3, 4]`. -/
theorem c4_witness :
    (Inv Nat.add (⟨3, [1, 6, 5, 1, 2, 3]⟩ : Segtree Nat) ∧
        (⟨3, [1, 6, 5, 1, 2, 3]⟩ : Segtree Nat).len =
          ([1, 2, 3] : List Nat).length ∧
        (⟨3, [1, 6, 5, 1, 2, 3]⟩ : Segtree Nat).table.length =
          2 * (⟨3, [1, 6, 5, 1, 2, 3]⟩ : Segtree Nat).len) ∧
      (Inv Nat.add (⟨4, [1, 17, 3, 14, 1, 2, 10, 4]⟩ : Segtree Nat) ∧
        (⟨4, [1, 17, 3, 14, 1, 2, 10, 4]⟩ : Segtree Nat).len =
          (⟨4, [1, 10, 3, 7, 1, 2, 3, 4]⟩ : Segtree Nat).len ∧
        (⟨4, [1, 17, 3, 14, 1, 2, 10, 4]⟩ : Segtree Nat).table.length =
          2 * (⟨4, [1, 17, 3, 14, 1, 2, 10, 4]⟩ : Segtree Nat).len) :=
  c4_invariant_after_build_and_set Nat.add [1, 2, 3]
    ⟨3, [1, 6, 5, 1, 2, 3]⟩ (by decide) ⟨4, [1, 10, 3, 7, 1, 2, 3, 4]⟩
    ⟨4, [1, 17, 3, 14, 1, 2, 10, 4]⟩ 2 10 (by decide) (by decide) (by decide)

/-- C5: after `set i x`, folding the singleton range `[i, i+1)` yields `x`,
and folds of valid ranges not containing `i` are unchanged. -/
theorem c5_set_point_and_frame {α : Type} (op : α → α → α) (idv : α)
    (hassoc : ∀ a b c, op (op a b) c = op a (op b c))
    (hidl : ∀ a, op idv a = a) (hidr : ∀ a, op a idv = a)
    (st : Segtree α) (i : Nat) (x : α) (hInv : Inv op st) (hi : i < st.len)
    (st' : Segtree α) (hset : setAt op st i x = some st')
    (s e : Nat) (hse : s ≤ e) (he : e ≤ st.len) (hout : e ≤ i ∨ i < s) :
    fold op idv st' i (i + 1) = some x ∧
      fold op idv st' s e = fold op idv st s e := by
  obtain ⟨st₂, hs₂, hlen₂, hInv₂, hlv₂⟩ := setAt_ok op st i x hInv hi
  rw [hset] at hs₂
  obtain rfl : st' = st₂ := Option.some.inj hs₂
  have hM := inv_models op idv hassoc hidl hidr st hInv
  have hM₂ := inv_models op idv hassoc hidl hidr st' hInv₂
  rw [hlv₂] at hM₂
  have hvlen : (leaves st).length = st.len := leaves_length st hInv.1
  have hvlen₂ : ((leaves st).set i x).length = st.len := by
    rw [List.length_set]
    exact hvlen
  constructor
  · rw [fold_ok op idv hassoc hidl hidr _ st' hM₂ i (i + 1) (by omega)
      (by omega)]
    congr 1
    rw [refFold_eq_rfold op idv _ i (i + 1) (by omega)]
    unfold rfold
    rw [show i + 1 - i = 1 from by omega, List.range'_one, List.map_cons,
      List.map_nil, List.foldl_cons, List.foldl_nil, hidl,
      List.getD_eq_getElem?_getD, List.getElem?_set, if_pos rfl,
      if_pos (by omega)]
    rfl
  · rw [fold_ok op idv hassoc hidl hidr _ st' hM₂ s e hse (by omega),
      fold_ok op idv hassoc hidl hidr _ st hM s e hse (by omega)]
    congr 1
    rw [refFold_eq_rfold op idv _ s e (by omega),
      refFold_eq_rfold op idv _ s e (by omega)]
    exact rfold_set_ne op idv (leaves st) i x s e (by omega)

/-- Witness for C5: `set 2 10` on the sum tree over `[1, 2, 3, 4]`, frame
range `0..2`. -/
theorem c5_witness :
    fold Nat.add 0 ⟨4, [1, 17, 3, 14, 1, 2, 10, 4]⟩ 2 (2 + 1) = some 10 ∧
      fold Nat.add 0 ⟨4, [1, 17, 3, 14, 1, 2, 10, 4]⟩ 0 2 =
        fold Nat.add 0 ⟨4, [1, 10, 3, 7, 1, 2, 3, 4]⟩ 0 2 :=
  c5_set_point_and_frame Nat.add 0 Nat.add_assoc Nat.zero_add Nat.add_zero
    ⟨4, [1, 10, 3, 7, 1, 2, 3, 4]⟩ 2 10 (by decide) (by decide)
    ⟨4, [1, 17, 3, 14, 1, 2, 10, 4]⟩ (by decide) 0 2 (by decide) (by decide)
    (by decide)

/-- C6 counterexample: the original claim states that `fold` fails with an
error whenever `end > n`, detected eagerly, never returning a normal value.
On the tree built from `[1, 2, 3, 4]` (n = 4), `fold 2 6` terminates
normally and returns `8` (the combination of `v[2]`, `v[3]` and `v[0]`,
since the walk wraps into unrelated table entries).  No validation exists
in the code. -/
theorem c6_counterexample :
    fromSlice Nat.add [1, 2, 3, 4] =
        some ⟨4, [1, 10, 3, 7, 1, 2, 3, 4]⟩ ∧
      (4 : Nat) < 6 ∧
      fold Nat.add 0 ⟨4, [1, 10, 3, 7, 1, 2, 3, 4]⟩ 2 6 = some 8 := by
  decide

/-- C6 amended: `fold` performs no eager range validation.  A call with
`end > n` may terminate normally with a value combined from wrapped table
entries (here `fold 2 6 = some 8` on the tree over `[1, 2, 3, 4]`), and a
call with `start > end` does not return normally (the boundary walk never
reaches `start = end`; in the embedding the call yields `none`). -/
theorem c6_amended_no_validation :
    fold Nat.add 0 ⟨4, [1, 10, 3, 7, 1, 2, 3, 4]⟩ 2 6 = some 8 ∧
      fold Nat.add 0 ⟨4, [1, 10, 3, 7, 1, 2, 3, 4]⟩ 1 0 = none := by
  decide

theorem setAt_some {α : Type} (op : α → α → α) (st : Segtree α) (i : Nat)
    (x : α) (hlen : st.table.length = 2 * st.len) (hi : i < st.len) :
    ∃ st', setAt op st i x = some st' := by
  have hwr : lset st.table (i + st.len) x =
      some (st.table.set (i + st.len) x) := by
    unfold lset
    rw [if_pos (by omega)]
  obtain ⟨tb', hrun, _⟩ := setLoop_some op st.len ((i + st.len) / 2)
    (i + st.len) (st.table.set (i + st.len) x) (by omega)
    (by simp [hlen]) (by omega)
  refine ⟨⟨st.len, tb'⟩, ?_⟩
  simp only [setAt, hwr, hrun]

/-- C7: `set i x` with `i ≥ n` fails before mutating anything (the very
first table write is out of bounds, so the failing call returns no tree);
with `i < n` it always succeeds. -/
theorem c7_set_bounds {α : Type} (op : α → α → α) (st : Segtree α)
    (i : Nat) (x : α) (hlen : st.table.length = 2 * st.len) :
    (st.len ≤ i → setAt op st i x = none) ∧
      (i < st.len → ∃ st', setAt op st i x = some st') := by
  constructor
  · intro hi
    exact setAt_oob op st i x hlen hi
  · intro hi
    exact setAt_some op st i x hlen hi

/-- Witness for C7 on the sum tree over `[1, 2, 3, 4]` with `i = 2`. -/
theorem c7_witness :
    ((⟨4, [1, 10, 3, 7, 1, 2, 3, 4]⟩ : Segtree Nat).len ≤ 2 →
        setAt Nat.add ⟨4, [1, 10, 3, 7, 1, 2, 3, 4]⟩ 2 9 = none) ∧
      (2 < (⟨4, [1, 10, 3, 7, 1, 2, 3, 4]⟩ : Segtree Nat).len →
        ∃ st', setAt Nat.add ⟨4, [1, 10, 3, 7, 1, 2, 3, 4]⟩ 2 9 = some st') :=
  c7_set_bounds Nat.add ⟨4, [1, 10, 3, 7, 1, 2, 3, 4]⟩ 2 9 (by decide)

/-- C9: on an empty range `k..k` with `k ≤ n`, both searches return `k`
immediately, for every predicate (the result does not depend on `pred` at
all, matching the fact that the code never calls it). -/
theorem c9_empty_range_search {α : Type} (op : α → α → α) (idv : α)
    (st : Segtree α) (k : Nat) (_hk : k ≤ st.len) (pred : α → Bool) :
    searchForward op idv st k k pred = some k ∧
      searchBackward op idv st k k pred = some k := by
  unfold searchForward searchBackward
  simp

/-- Witness for C9 at `k = 2` on the sum tree over `[1, 2, 3, 4]`, with a
predicate that is false everywhere (so it would reject even the identity). -/
theorem c9_witness :
    searchForward Nat.add 0 ⟨4, [1, 10, 3, 7, 1, 2, 3, 4]⟩ 2 2
        (fun _ => false) = some 2 ∧
      searchBackward Nat.add 0 ⟨4, [1, 10, 3, 7, 1, 2, 3, 4]⟩ 2 2
        (fun _ => false) = some 2 :=
  c9_empty_range_search Nat.add 0 ⟨4, [1, 10, 3, 7, 1, 2, 3, 4]⟩ 2
    (by decide) (fun _ => false)


/-- C2: on a valid range with a predicate monotonic over growing prefixes,
`search_forward` returns the unique boundary `i`: `pred` holds on the fold
of `[s, i)` (vacuously when `i = s`) and fails on `[s, i+1)` when `i < e`. -/
theorem c2_search_forward_boundary {α : Type} (op : α → α → α) (idv : α)
    (hassoc : ∀ a b c, op (op a b) c = op a (op b c))
    (hidl : ∀ a, op idv a = a) (hidr : ∀ a, op a idv = a)
    (st : Segtree α) (hInv : Inv op st) (s e : Nat) (hse : s ≤ e)
    (he : e ≤ st.len) (pred : α → Bool)
    (hmono : ∀ k, k ≤ e → ∀ k', k' ≤ e → s ≤ k → k ≤ k' →
      pred (refFold op idv (leaves st) s k) = false →
      pred (refFold op idv (leaves st) s k') = false) :
    ∃ i, searchForward op idv st s e pred = some i ∧ s ≤ i ∧ i ≤ e ∧
      (i = s ∨ pred (refFold op idv (leaves st) s i) = true) ∧
      (i < e → pred (refFold op idv (leaves st) s (i + 1)) = false) ∧
      (∀ j, s ≤ j → j ≤ e →
        (j = s ∨ pred (refFold op idv (leaves st) s j) = true) →
        (j < e → pred (refFold op idv (leaves st) s (j + 1)) = false) →
        j = i) := by
  have hM := inv_models op idv hassoc hidl hidr st hInv
  have hvlen : (leaves st).length = st.len := leaves_length st hInv.1
  have hrr : ∀ x, x ≤ e →
      refFold op idv (leaves st) s x = rfold op idv (leaves st) s x := by
    intro x hx
    exact refFold_eq_rfold op idv (leaves st) s x (by omega)
  obtain ⟨q, hrun, hq1, hq2, hq3, hq4⟩ := searchForward_spec op idv hassoc
    hidl hidr (leaves st) st hM s e hse (by omega) pred
  refine ⟨q, hrun, hq1, hq2, ?_, ?_, ?_⟩
  · rcases hq3 with h | h
    · exact Or.inl h
    · right
      rw [hrr q hq2]
      exact h
  · intro hlt
    rw [hrr (q + 1) (by omega)]
    exact hq4 hlt
  · intro j hj1 hj2 hj3 hj4
    rcases Nat.lt_trichotomy j q with hlt | heq | hgt
    · exfalso
      have hjf : pred (refFold op idv (leaves st) s (j + 1)) = false :=
        hj4 (by omega)
      have hqt : pred (refFold op idv (leaves st) s q) = true := by
        rcases hq3 with h | h
        · omega
        · rw [hrr q hq2]
          exact h
      have := hmono (j + 1) (by omega) q hq2 (by omega) (by omega) hjf
      rw [this] at hqt
      exact Bool.false_ne_true hqt
    · exact heq
    · exfalso
      have hqf : pred (refFold op idv (leaves st) s (q + 1)) = false := by
        rw [hrr (q + 1) (by omega)]
        exact hq4 (by omega)
      have hjt : pred (refFold op idv (leaves st) s j) = true := by
        rcases hj3 with h | h
        · omega
        · exact h
      have := hmono (q + 1) (by omega) j hj2 (by omega) (by omega) hqf
      rw [this] at hjt
      exact Bool.false_ne_true hjt

/-- Witness for C2: spec scenario B, the sum tree over `[1, 2, 3, 4]` with
the monotone predicate `sum ≤ 3` on the full range: the boundary is `2`. -/
theorem c2_witness :
    ∃ i, searchForward Nat.add 0 ⟨4, [1, 10, 3, 7, 1, 2, 3, 4]⟩ 0 4
        (fun x => decide (x ≤ 3)) = some i ∧ 0 ≤ i ∧ i ≤ 4 ∧
      (i = 0 ∨ (fun x => decide (x ≤ 3))
        (refFold Nat.add 0 (leaves ⟨4, [1, 10, 3, 7, 1, 2, 3, 4]⟩) 0 i) =
          true) ∧
      (i < 4 → (fun x => decide (x ≤ 3))
        (refFold Nat.add 0 (leaves ⟨4, [1, 10, 3, 7, 1, 2, 3, 4]⟩) 0
          (i + 1)) = false) ∧
      (∀ j, 0 ≤ j → j ≤ 4 →
        (j = 0 ∨ (fun x => decide (x ≤ 3))
          (refFold Nat.add 0 (leaves ⟨4, [1, 10, 3, 7, 1, 2, 3, 4]⟩) 0 j) =
            true) →
        (j < 4 → (fun x => decide (x ≤ 3))
          (refFold Nat.add 0 (leaves ⟨4, [1, 10, 3, 7, 1, 2, 3, 4]⟩) 0
            (j + 1)) = false) →
        j = i) :=
  c2_search_forward_boundary Nat.add 0 Nat.add_assoc Nat.zero_add
    Nat.add_zero ⟨4, [1, 10, 3, 7, 1, 2, 3, 4]⟩ (by decide) 0 4 (by decide)
    (by decide) (fun x => decide (x ≤ 3)) (by decide)


/-- C3: on a valid range with a predicate monotonic over growing suffixes
(true on the empty suffix), `search_backward` returns the unique boundary
`i`: `pred` holds on the fold of `[i, e)` and fails on `[i-1, e)` when
`i > s`. -/
theorem c3_search_backward_boundary {α : Type} (op : α → α → α) (idv : α)
    (hassoc : ∀ a b c, op (op a b) c = op a (op b c))
    (hidl : ∀ a, op idv a = a) (hidr : ∀ a, op a idv = a)
    (st : Segtree α) (hInv : Inv op st) (s e : Nat) (hse : s ≤ e)
    (he : e ≤ st.len) (pred : α → Bool) (hempty : pred idv = true)
    (hmono : ∀ k, k ≤ e → ∀ k', k' ≤ e → s ≤ k → k ≤ k' →
      pred (refFold op idv (leaves st) k' e) = false →
      pred (refFold op idv (leaves st) k e) = false) :
    ∃ i, searchBackward op idv st s e pred = some i ∧ s ≤ i ∧ i ≤ e ∧
      pred (refFold op idv (leaves st) i e) = true ∧
      (s < i → pred (refFold op idv (leaves st) (i - 1) e) = false) ∧
      (∀ j, s ≤ j → j ≤ e →
        pred (refFold op idv (leaves st) j e) = true →
        (s < j → pred (refFold op idv (leaves st) (j - 1) e) = false) →
        j = i) := by
  have hM := inv_models op idv hassoc hidl hidr st hInv
  have hvlen : (leaves st).length = st.len := leaves_length st hInv.1
  have hrr : ∀ x,
      refFold op idv (leaves st) x e = rfold op idv (leaves st) x e := by
    intro x
    exact refFold_eq_rfold op idv (leaves st) x e (by omega)
  obtain ⟨q, hrun, hq1, hq2, hq3, hq4⟩ := searchBackward_spec op idv hassoc
    hidl hidr (leaves st) st hM s e hse (by omega) pred
  have hq3' : pred (refFold op idv (leaves st) q e) = true := by
    rcases hq3 with h | h
    · rw [h, hrr e, rfold_empty]
      exact hempty
    · rw [hrr q]
      exact h
  refine ⟨q, hrun, hq1, hq2, hq3', ?_, ?_⟩
  · intro hlt
    rw [hrr (q - 1)]
    exact hq4 hlt
  · intro j hj1 hj2 hj3 hj4
    rcases Nat.lt_trichotomy j q with hlt | heq | hgt
    · exfalso
      have hqf : pred (refFold op idv (leaves st) (q - 1) e) = false := by
        rw [hrr (q - 1)]
        exact hq4 (by omega)
      have := hmono j (by omega) (q - 1) (by omega) hj1 (by omega) hqf
      rw [this] at hj3
      exact Bool.false_ne_true hj3
    · exact heq
    · exfalso
      have hjf : pred (refFold op idv (leaves st) (j - 1) e) = false :=
        hj4 (by omega)
      have := hmono q (by omega) (j - 1) (by omega) hq1 (by omega) hjf
      rw [this] at hq3'
      exact Bool.false_ne_true hq3'

/-- Witness for C3: the sum tree over `[1, 2, 3, 4]` with the suffix
predicate `sum ≤ 7` on the full range: the boundary is `2` (suffix sums
`4, 7, 9, 10`). -/
theorem c3_witness :
    ∃ i, searchBackward Nat.add 0 ⟨4, [1, 10, 3, 7, 1, 2, 3, 4]⟩ 0 4
        (fun x => decide (x ≤ 7)) = some i ∧ 0 ≤ i ∧ i ≤ 4 ∧
      (fun x => decide (x ≤ 7))
        (refFold Nat.add 0 (leaves ⟨4, [1, 10, 3, 7, 1, 2, 3, 4]⟩) i 4) =
          true ∧
      (0 < i → (fun x => decide (x ≤ 7))
        (refFold Nat.add 0 (leaves ⟨4, [1, 10, 3, 7, 1, 2, 3, 4]⟩) (i - 1)
          4) = false) ∧
      (∀ j, 0 ≤ j → j ≤ 4 →
        (fun x => decide (x ≤ 7))
          (refFold Nat.add 0 (leaves ⟨4, [1, 10, 3, 7, 1, 2, 3, 4]⟩) j 4) =
            true →
        (0 < j → (fun x => decide (x ≤ 7))
          (refFold Nat.add 0 (leaves ⟨4, [1, 10, 3, 7, 1, 2, 3, 4]⟩)
            (j - 1) 4) = false) →
        j = i) :=
  c3_search_backward_boundary Nat.add 0 Nat.add_assoc Nat.zero_add
    Nat.add_zero ⟨4, [1, 10, 3, 7, 1, 2, 3, 4]⟩ (by decide) 0 4 (by decide)
    (by decide) (fun x => decide (x ≤ 7)) (by decide) (by decide)

/-- C10: on a nonempty valid range with the constantly-false predicate,
`search_forward` returns `start` and `search_backward` returns `end`. -/
theorem c10_const_false_search {α : Type} (op : α → α → α) (idv : α)
    (hassoc : ∀ a b c, op (op a b) c = op a (op b c))
    (hidl : ∀ a, op idv a = a) (hidr : ∀ a, op a idv = a)
    (st : Segtree α) (hInv : Inv op st) (s e : Nat) (hslt : s < e)
    (he : e ≤ st.len) :
    searchForward op idv st s e (fun _ => false) = some s ∧
      searchBackward op idv st s e (fun _ => false) = some e := by
  have hM := inv_models op idv hassoc hidl hidr st hInv
  have hvlen : (leaves st).length = st.len := leaves_length st hInv.1
  constructor
  · obtain ⟨q, hrun, hq1, hq2, hq3, _⟩ := searchForward_spec op idv hassoc
      hidl hidr (leaves st) st hM s e (by omega) (by omega) (fun _ => false)
    have hq : q = s := by
      rcases hq3 with h | h
      · exact h
      · simp at h
    rw [hrun, hq]
  · obtain ⟨q, hrun, hq1, hq2, hq3, _⟩ := searchBackward_spec op idv hassoc
      hidl hidr (leaves st) st hM s e (by omega) (by omega) (fun _ => false)
    have hq : q = e := by
      rcases hq3 with h | h
      · exact h
      · simp at h
    rw [hrun, hq]

/-- Witness for C10 on the sum tree over `[1, 2, 3, 4]`, range `1..4`. -/
theorem c10_witness :
    searchForward Nat.add 0 ⟨4, [1, 10, 3, 7, 1, 2, 3, 4]⟩ 1 4
        (fun _ => false) = some 1 ∧
      searchBackward Nat.add 0 ⟨4, [1, 10, 3, 7, 1, 2, 3, 4]⟩ 1 4
        (fun _ => false) = some 4 :=
  c10_const_false_search Nat.add 0 Nat.add_assoc Nat.zero_add Nat.add_zero
    ⟨4, [1, 10, 3, 7, 1, 2, 3, 4]⟩ (by decide) 1 4 (by decide) (by decide)

/-- C8: every operation terminates: construction always succeeds, `set`
succeeds on every in-range index, and `fold`, `search_forward` and
`search_backward` return a value on every valid range, for every algebra
and predicate. -/
theorem c8_all_operations_terminate {α : Type} (op : α → α → α) (idv : α)
    (hassoc : ∀ a b c, op (op a b) c = op a (op b c))
    (hidl : ∀ a, op idv a = a) (hidr : ∀ a, op a idv = a)
    (src : List α) (st₁ : Segtree α) (i : Nat) (x : α)
    (hlen1 : st₁.table.length = 2 * st₁.len) (hi : i < st₁.len)
    (st : Segtree α) (hInv : Inv op st) (s e : Nat) (hse : s ≤ e)
    (he : e ≤ st.len) (pred : α → Bool) :
    (∃ st₀, fromSlice op src = some st₀) ∧
      (∃ st', setAt op st₁ i x = some st') ∧
      (∃ y, fold op idv st s e = some y) ∧
      (∃ q, searchForward op idv st s e pred = some q) ∧
      (∃ q, searchBackward op idv st s e pred = some q) := by
  have hM := inv_models op idv hassoc hidl hidr st hInv
  have hvlen : (leaves st).length = st.len := leaves_length st hInv.1
  refine ⟨?_, ?_, ?_, ?_, ?_⟩
  · obtain ⟨st₀, h, _⟩ := fromSlice_ok op src
    exact ⟨st₀, h⟩
  · exact setAt_some op st₁ i x hlen1 hi
  · exact ⟨refFold op idv (leaves st) s e,
      fold_ok op idv hassoc hidl hidr (leaves st) st hM s e hse (by omega)⟩
  · obtain ⟨q, hrun, _⟩ := searchForward_spec op idv hassoc hidl hidr
      (leaves st) st hM s e hse (by omega) pred
    exact ⟨q, hrun⟩
  · obtain ⟨q, hrun, _⟩ := searchBackward_spec op idv hassoc hidl hidr
      (leaves st) st hM s e hse (by omega) pred
    exact ⟨q, hrun⟩

/-- Witness for C8 at the sum monoid: build from `[5, 6]`, set index 1 on
the tree over `[1, 2, 3, 4]`, and query range `1..3`. -/
theorem c8_witness :
    (∃ st₀, fromSlice Nat.add [5, 6] = some st₀) ∧
      (∃ st', setAt Nat.add ⟨4, [1, 10, 3, 7, 1, 2, 3, 4]⟩ 1 9 = some st') ∧
      (∃ y, fold Nat.add 0 ⟨4, [1, 10, 3, 7, 1, 2, 3, 4]⟩ 1 3 = some y) ∧
      (∃ q, searchForward Nat.add 0 ⟨4, [1, 10, 3, 7, 1, 2, 3, 4]⟩ 1 3
        (fun x => decide (x ≤ 2)) = some q) ∧
      (∃ q, searchBackward Nat.add 0 ⟨4, [1, 10, 3, 7, 1, 2, 3, 4]⟩ 1 3
        (fun x => decide (x ≤ 2)) = some q) :=
  c8_all_operations_terminate Nat.add 0 Nat.add_assoc Nat.zero_add
    Nat.add_zero [5, 6] ⟨4, [1, 10, 3, 7, 1, 2, 3, 4]⟩ 1 9 (by decide)
    (by decide) ⟨4, [1, 10, 3, 7, 1, 2, 3, 4]⟩ (by decide) 1 3 (by decide)
    (by decide) (fun x => decide (x ≤ 2))

end Segtree2
